import Mathlib

/-!
Verification of the chess engine's move generator, legality filter, FEN codec,
Zobrist hashing, transposition table, evaluator selection and search driver.
Each JavaScript source function is translated into an executable Lean
definition; squares are JavaScript numbers (here `Int`), the 64-entry board
array is a `List (Option Piece)`, and out-of-range array reads return `none`
exactly as JavaScript array reads return `undefined`.
-/

namespace Chess

inductive Color where
  | w
  | b
deriving DecidableEq, Repr

inductive PieceKind where
  | P
  | N
  | B
  | R
  | Q
  | K
deriving DecidableEq, Repr

structure Piece where
  c : Color
  t : PieceKind
deriving DecidableEq, Repr

/-- The board is the JS 64-element array `state.board`. -/
abbrev Board := List (Option Piece)

/-- `state` object fields used by the engine (UI-only fields omitted). -/
structure State where
  board : Board
  turn : Color
  castleRight : List Char
  ep : Option Int
  halfmove : Int
  fullmove : Int
deriving DecidableEq, Repr

def other (c : Color) : Color :=
  match c with
  | Color.w => Color.b
  | Color.b => Color.w

/-- JS array read `board[i]`: `undefined` (here `none`) outside the 64 slots. -/
def bget (b : Board) (i : Int) : Option Piece :=
  if 0 ≤ i ∧ i < 64 then (b.getD i.toNat none) else none

/-- JS array write `board[i] = v` for the 64-slot board; writes outside the
    slots (never observed by the engine) are dropped. -/
def bset (b : Board) (i : Int) (v : Option Piece) : Board :=
  if 0 ≤ i ∧ i < 64 then b.set i.toNat v else b

/-- `board.js` `toIndex(r, f) = r*8 + f`. -/
def toIndex (r f : Int) : Int := r * 8 + f

structure RF where
  r : Int
  f : Int
deriving DecidableEq, Repr

/-- `board.js` `fromIndex`: `Math.floor(i/8)` and the JS remainder `i % 8`
    (sign of the dividend), so negative inputs behave as in JS. -/
def fromIndex (i : Int) : RF := { r := Int.fdiv i 8, f := Int.tmod i 8 }

def onBoard (r f : Int) : Bool := decide (0 ≤ r ∧ r < 8 ∧ 0 ≤ f ∧ f < 8)

def blocked (st : State) (myColor : Color) (i : Int) : Bool :=
  match bget st.board i with
  | some q => decide (q.c = myColor)
  | none => false

def canLand (st : State) (myColor : Color) (i : Int) : Bool :=
  match bget st.board i with
  | some q => decide (q.c ≠ myColor)
  | none => true

/-- The square indices `0..63` scanned by the `for (let i = 0; i < 64; i++)`
    loops. -/
def sq64 : List Int := (List.range 64).map Int.ofNat

def knightDeltas : List (Int × Int) :=
  [(-2, -1), (-2, 1), (-1, -2), (-1, 2), (1, -2), (1, 2), (2, -1), (2, 1)]

def dirsDiag : List (Int × Int) := [(1, 1), (1, -1), (-1, 1), (-1, -1)]

def dirsOrtho : List (Int × Int) := [(1, 0), (-1, 0), (0, 1), (0, -1)]

def kingDeltas : List (Int × Int) :=
  [(1, 0), (-1, 0), (0, 1), (0, -1), (1, 1), (1, -1), (-1, 1), (-1, -1)]

/-- One sliding ray of `bishopMoves`/`rookMoves`/`queenMoves`: step while on
    board and not blocked by a friend, push, stop after a capture.  The fuel
    is the loop bound `s <= 7`. -/
def ray (st : State) (c : Color) (r f dr df : Int) : Nat → List Int
  | 0 => []
  | n + 1 =>
    let rr := r + dr
    let ff := f + df
    if onBoard rr ff then
      let idx := toIndex rr ff
      if blocked st c idx then []
      else
        match bget st.board idx with
        | some _ => [idx]
        | none => idx :: ray st c rr ff dr df n
    else []

def slideMoves (st : State) (i : Int) (p : Piece) (dirs : List (Int × Int)) :
    List Int :=
  let rf := fromIndex i
  dirs.flatMap (fun d => ray st p.c rf.r rf.f d.1 d.2 7)

def knightMoves (st : State) (i : Int) : List Int :=
  match bget st.board i with
  | some p =>
    if p.t = PieceKind.N then
      let rf := fromIndex i
      knightDeltas.filterMap (fun d =>
        let rr := rf.r + d.1
        let ff := rf.f + d.2
        if onBoard rr ff ∧ canLand st p.c (toIndex rr ff) then
          some (toIndex rr ff)
        else none)
    else []
  | none => []

def bishopMoves (st : State) (i : Int) : List Int :=
  match bget st.board i with
  | some p => if p.t = PieceKind.B then slideMoves st i p dirsDiag else []
  | none => []

def rookMoves (st : State) (i : Int) : List Int :=
  match bget st.board i with
  | some p => if p.t = PieceKind.R then slideMoves st i p dirsOrtho else []
  | none => []

def queenMoves (st : State) (i : Int) : List Int :=
  match bget st.board i with
  | some p =>
    if p.t = PieceKind.Q then slideMoves st i p (dirsOrtho ++ dirsDiag) else []
  | none => []

/-- One scanning ray of `isSquareAttacked`: skip empty squares, stop at the
    first piece; an attack iff it is an enemy-side piece of a matching kind. -/
def rayAttack (st : State) (c : Color) (kinds : List PieceKind)
    (r f dr df : Int) : Nat → Bool
  | 0 => false
  | n + 1 =>
    let rr := r + dr
    let ff := f + df
    if onBoard rr ff then
      match bget st.board (toIndex rr ff) with
      | none => rayAttack st c kinds rr ff dr df n
      | some q => if q.c ≠ c then false else decide (q.t ∈ kinds)
    else false

/-- `isSquareAttacked(state, i, color)`. -/
def isSquareAttacked (st : State) (i : Int) (color : Color) : Bool :=
  let rf := fromIndex i
  let pdir : Int := if color = Color.w then 1 else -1
  let pawnHit := [(-1 : Int), 1].any (fun df =>
    let rr := rf.r + pdir
    let ff := rf.f + df
    onBoard rr ff &&
      match bget st.board (toIndex rr ff) with
      | some q => decide (q.c = color ∧ q.t = PieceKind.P)
      | none => false)
  let knightHit := knightDeltas.any (fun d =>
    let rr := rf.r + d.1
    let ff := rf.f + d.2
    onBoard rr ff &&
      match bget st.board (toIndex rr ff) with
      | some q => decide (q.c = color ∧ q.t = PieceKind.N)
      | none => false)
  let diagHit := dirsDiag.any (fun d =>
    rayAttack st color [PieceKind.B, PieceKind.Q] rf.r rf.f d.1 d.2 7)
  let orthoHit := dirsOrtho.any (fun d =>
    rayAttack st color [PieceKind.R, PieceKind.Q] rf.r rf.f d.1 d.2 7)
  let kingHit := (dirsDiag ++ dirsOrtho).any (fun d =>
    let rr := rf.r + d.1
    let ff := rf.f + d.2
    onBoard rr ff &&
      match bget st.board (toIndex rr ff) with
      | some q => decide (q.c = color ∧ q.t = PieceKind.K)
      | none => false)
  pawnHit || knightHit || diagHit || orthoHit || kingHit

/-- `kingMoves`: eight adjacent squares plus castling. -/
def kingMoves (st : State) (i : Int) : List Int :=
  match bget st.board i with
  | some p =>
    if p.t = PieceKind.K then
      let rf := fromIndex i
      let basic := kingDeltas.filterMap (fun d =>
        let rr := rf.r + d.1
        let ff := rf.f + d.2
        if onBoard rr ff ∧ canLand st p.c (toIndex rr ff) then
          some (toIndex rr ff)
        else none)
      let enemy := other p.c
      let rights := st.castleRight
      let kingStart :=
        (p.c = Color.w ∧ rf.r = 7 ∧ rf.f = 4) ∨
          (p.c = Color.b ∧ rf.r = 0 ∧ rf.f = 4)
      if ¬ kingStart then basic
      else
        let e := toIndex rf.r 4
        let safe := fun (sq : Int) => ! isSquareAttacked st sq enemy
        let emptyAt := fun (sq : Int) => (bget st.board sq).isNone
        let isRookOf := fun (sq : Int) (c : Color) =>
          match bget st.board sq with
          | some q => decide (q.t = PieceKind.R ∧ q.c = c)
          | none => false
        if p.c = Color.w then
          let ks :=
            if rights.contains 'K' &&
                emptyAt (toIndex 7 5) && emptyAt (toIndex 7 6) &&
                safe e && safe (toIndex 7 5) && safe (toIndex 7 6) &&
                isRookOf (toIndex 7 7) Color.w then
              [toIndex 7 6]
            else []
          let qs :=
            if rights.contains 'Q' &&
                emptyAt (toIndex 7 3) && emptyAt (toIndex 7 2) &&
                emptyAt (toIndex 7 1) &&
                safe e && safe (toIndex 7 3) && safe (toIndex 7 2) &&
                isRookOf (toIndex 7 0) Color.w then
              [toIndex 7 2]
            else []
          basic ++ ks ++ qs
        else
          let ks :=
            if rights.contains 'k' &&
                emptyAt (toIndex 0 5) && emptyAt (toIndex 0 6) &&
                safe e && safe (toIndex 0 5) && safe (toIndex 0 6) &&
                isRookOf (toIndex 0 7) Color.b then
              [toIndex 0 6]
            else []
          let qs :=
            if rights.contains 'q' &&
                emptyAt (toIndex 0 3) && emptyAt (toIndex 0 2) &&
                emptyAt (toIndex 0 1) &&
                safe e && safe (toIndex 0 3) && safe (toIndex 0 2) &&
                isRookOf (toIndex 0 0) Color.b then
              [toIndex 0 2]
            else []
          basic ++ ks ++ qs
    else []
  | none => []

/-- `pawnMoves`: single/double push, diagonal captures, en passant. -/
def pawnMoves (st : State) (i : Int) : List Int :=
  match bget st.board i with
  | some p =>
    if p.t = PieceKind.P then
      let rf := fromIndex i
      let dir : Int := if p.c = Color.w then -1 else 1
      let startRank : Int := if p.c = Color.w then 6 else 1
      let r1 := rf.r + dir
      let pushes :=
        if onBoard r1 rf.f then
          if bget st.board (toIndex r1 rf.f) = none then
            let one := [toIndex r1 rf.f]
            if rf.r = startRank then
              let r2 := rf.r + 2 * dir
              if bget st.board (toIndex r2 rf.f) = none then
                one ++ [toIndex r2 rf.f]
              else one
            else one
          else []
        else []
      let caps := [(-1 : Int), 1].filterMap (fun df =>
        let rr := rf.r + dir
        let ff := rf.f + df
        if onBoard rr ff then
          match bget st.board (toIndex rr ff) with
          | some q => if q.c ≠ p.c then some (toIndex rr ff) else none
          | none => none
        else none)
      let eps :=
        match st.ep with
        | some ep =>
          let erf := fromIndex ep
          if erf.r = rf.r + dir ∧ (erf.f - rf.f = 1 ∨ erf.f - rf.f = -1) then
            match bget st.board (toIndex rf.r erf.f) with
            | some adj =>
              if adj.t = PieceKind.P ∧ adj.c ≠ p.c then [ep] else []
            | none => []
          else []
        | none => []
      pushes ++ caps ++ eps
    else []
  | none => []

def generateMoves (st : State) (i : Int) : List Int :=
  match bget st.board i with
  | some p =>
    match p.t with
    | PieceKind.N => knightMoves st i
    | PieceKind.B => bishopMoves st i
    | PieceKind.R => rookMoves st i
    | PieceKind.Q => queenMoves st i
    | PieceKind.K => kingMoves st i
    | PieceKind.P => pawnMoves st i
  | none => []

/-- The condition tested by the `findKing` scan. -/
def ownKingAt (b : Board) (color : Color) (i : Int) : Bool :=
  match bget b i with
  | some p => decide (p.c = color ∧ p.t = PieceKind.K)
  | none => false

/-- `findKing`: first index holding the given side's king, else `-1`. -/
def findKing (st : State) (color : Color) : Int :=
  match sq64.find? (ownKingAt st.board color) with
  | some i => i
  | none => -1

def inCheck (st : State) (color : Color) : Bool :=
  let k := findKing st color
  if k = -1 then false
  else isSquareAttacked st k (other color)

/-- One ray of `attackersToSquare`: empty squares accumulate into `between`;
    the first piece is an attacker (paired with its between set) iff it is an
    enemy slider of the ray's kind. -/
def attackRay (st : State) (c : Color) (kind : PieceKind)
    (r f dr df : Int) (between : List Int) : Nat → Option (Int × List Int)
  | 0 => none
  | n + 1 =>
    let rr := r + dr
    let ff := f + df
    if onBoard rr ff then
      let idx := toIndex rr ff
      match bget st.board idx with
      | none => attackRay st c kind rr ff dr df (between ++ [idx]) n
      | some q =>
        if q.c ≠ c then none
        else
          if (kind = PieceKind.R ∧ (q.t = PieceKind.R ∨ q.t = PieceKind.Q)) ∨
              (kind = PieceKind.B ∧ (q.t = PieceKind.B ∨ q.t = PieceKind.Q)) then
            some (idx, between)
          else none
    else none

def rayDirs : List (Int × Int × PieceKind) :=
  [(1, 0, PieceKind.R), (-1, 0, PieceKind.R), (0, 1, PieceKind.R),
   (0, -1, PieceKind.R), (1, 1, PieceKind.B), (1, -1, PieceKind.B),
   (-1, 1, PieceKind.B), (-1, -1, PieceKind.B)]

/-- `attackersToSquare`: attacker squares paired with the slider's between
    set (`none` for pawn/knight/king attackers). -/
def attackersToSquare (st : State) (sq : Int) (color : Color) :
    List (Int × Option (List Int)) :=
  let rf := fromIndex sq
  let pdir : Int := if color = Color.w then 1 else -1
  let pawns := [(-1 : Int), 1].filterMap (fun df =>
    let rr := rf.r + pdir
    let ff := rf.f + df
    if onBoard rr ff then
      match bget st.board (toIndex rr ff) with
      | some q =>
        if q.c = color ∧ q.t = PieceKind.P then
          some (toIndex rr ff, (none : Option (List Int)))
        else none
      | none => none
    else none)
  let knights := knightDeltas.filterMap (fun d =>
    let rr := rf.r + d.1
    let ff := rf.f + d.2
    if onBoard rr ff then
      match bget st.board (toIndex rr ff) with
      | some q =>
        if q.c = color ∧ q.t = PieceKind.N then
          some (toIndex rr ff, (none : Option (List Int)))
        else none
      | none => none
    else none)
  let sliders := rayDirs.filterMap (fun d =>
    (attackRay st color d.2.2 rf.r rf.f d.1 d.2.1 [] 7).map
      (fun ab => (ab.1, some ab.2)))
  let kings := kingDeltas.filterMap (fun d =>
    let rr := rf.r + d.1
    let ff := rf.f + d.2
    if onBoard rr ff then
      match bget st.board (toIndex rr ff) with
      | some q =>
        if q.c = color ∧ q.t = PieceKind.K then
          some (toIndex rr ff, (none : Option (List Int)))
        else none
      | none => none
    else none)
  pawns ++ knights ++ sliders ++ kings

/-- One ray of `computePins`: walk outward from the king; a single friendly
    piece followed by a matching enemy slider is pinned. -/
def pinScan (st : State) (c : Color) (kind : PieceKind)
    (r f dr df : Int) (ally : Option Int) : Nat → Option Int
  | 0 => none
  | n + 1 =>
    let rr := r + dr
    let ff := f + df
    if onBoard rr ff then
      let idx := toIndex rr ff
      match bget st.board idx with
      | none => pinScan st c kind rr ff dr df ally n
      | some q =>
        if q.c = c then
          match ally with
          | none => pinScan st c kind rr ff dr df (some idx) n
          | some _ => none
        else
          match ally with
          | some a =>
            if (kind = PieceKind.R ∧ (q.t = PieceKind.R ∨ q.t = PieceKind.Q)) ∨
                (kind = PieceKind.B ∧ (q.t = PieceKind.B ∨ q.t = PieceKind.Q)) then
              some a
            else none
          | none => none
    else none

/-- `computePins`: pinned square paired with the unit ray direction. -/
def computePins (st : State) (color : Color) (kingSq : Int) :
    List (Int × Int × Int) :=
  let rf := fromIndex kingSq
  rayDirs.filterMap (fun d =>
    (pinScan st color d.2.2 rf.r rf.f d.1 d.2.1 none 7).map
      (fun a => (a, Int.sign d.1, Int.sign d.2.1)))

/-- `alongRay(from, to, dr, df)`. -/
def alongRay (fromSq toSq dr df : Int) : Bool :=
  let frf := fromIndex fromSq
  let trf := fromIndex toSq
  let dR := trf.r - frf.r
  let dF := trf.f - frf.f
  if dr = 0 ∧ df = 0 then false
  else if dr = 0 then
    if dR ≠ 0 then false
    else decide (Int.sign dF = df ∨ Int.sign dF = -df)
  else if df = 0 then
    if dF ≠ 0 then false
    else decide (Int.sign dR = dr ∨ Int.sign dR = -dr)
  else
    if dR.natAbs ≠ dF.natAbs then false
    else decide ((Int.sign dR = dr ∧ Int.sign dF = df) ∨
      (Int.sign dR = -dr ∧ Int.sign dF = -df))

/-- The en-passant test at the top of `leavesKingInCheck`:
    `mover.t === "P" && to === state.ep && fromRF.f !== toRF.f && !savedTo`. -/
def lkicIsEP (st : State) (fromSq toSq : Int) (mover : Piece) : Prop :=
  mover.t = PieceKind.P ∧ st.ep = some toSq ∧
    (fromIndex fromSq).f ≠ (fromIndex toSq).f ∧ bget st.board toSq = none

instance (st : State) (fromSq toSq : Int) (mover : Piece) :
    Decidable (lkicIsEP st fromSq toSq mover) := by
  unfold lkicIsEP; infer_instance

/-- The en-passant capture index of `leavesKingInCheck` (`-1` when unused). -/
def lkicEpIdx (st : State) (fromSq toSq : Int) (mover : Piece) : Int :=
  let dir : Int := if mover.c = Color.w then -1 else 1
  if lkicIsEP st fromSq toSq mover then
    toIndex ((fromIndex toSq).r - dir) (fromIndex toSq).f
  else -1

/-- The board after the three "do" writes of `leavesKingInCheck`. -/
def lkicDoBoard (st : State) (fromSq toSq : Int) (mover : Piece) : Board :=
  let b1 :=
    if lkicIsEP st fromSq toSq mover then
      bset st.board (lkicEpIdx st fromSq toSq mover) none
    else st.board
  let b2 := bset b1 toSq (some mover)
  bset b2 fromSq none

/-- `leavesKingInCheck` with its do/undo mutation made explicit: the result
    pairs the legality verdict with the state as it stands after the undo
    writes, so the restoration claim can be stated about it. -/
def leavesKingInCheckRun (st : State) (fromSq toSq : Int)
    (knownKingSq : Option Int) : Bool × State :=
  match bget st.board fromSq with
  | none => (false, st)
  | some mover =>
    let savedFrom := mover
    let savedTo := bget st.board toSq
    let isEP := lkicIsEP st fromSq toSq mover
    let epCapIdx := lkicEpIdx st fromSq toSq mover
    let epCapSaved := bget st.board epCapIdx
    let b3 := lkicDoBoard st fromSq toSq mover
    let stDo := { st with board := b3 }
    let color := mover.c
    let enemy := other color
    let kingSq :=
      if mover.t = PieceKind.K then toSq
      else
        match knownKingSq with
        | some k => k
        | none => findKing stDo color
    let illegal := isSquareAttacked stDo kingSq enemy
    let b4 := bset b3 fromSq (some savedFrom)
    let b5 := bset b4 toSq savedTo
    let b6 := if isEP then bset b5 epCapIdx epCapSaved else b5
    (illegal, { st with board := b6 })

def leavesKingInCheck (st : State) (fromSq toSq : Int)
    (knownKingSq : Option Int) : Bool :=
  (leavesKingInCheckRun st fromSq toSq knownKingSq).1

/-- The per-square inner loop of `allLegalMoves` (single-check / no-check
    path): restrict by check state and pin ray, then do/undo filter. -/
def legalFromSquare (st : State) (color : Color) (nAtk : Nat)
    (checkerSq : Int) (blockSquares : Option (List Int))
    (pins : List (Int × Int × Int)) (kingSq : Int) (i : Int) :
    List (Int × Int) :=
  match bget st.board i with
  | some p =>
    if p.c = color then
      let pseudo := generateMoves st i
      let isKing := decide (p.t = PieceKind.K)
      let pinDir := (pins.find? (fun e => e.1 = i)).map (fun e => e.2)
      let inBlock := fun (toSq : Int) =>
        match blockSquares with
        | some l => decide (toSq ∈ l)
        | none => false
      pseudo.filterMap (fun toSq =>
        if decide (nAtk = 1) && ! isKing && decide (toSq ≠ checkerSq) &&
            ! inBlock toSq then none
        else
          let pinBad :=
            ! isKing &&
              (match pinDir with
               | some d => ! alongRay i toSq d.1 d.2
               | none => false)
          if pinBad then none
          else if leavesKingInCheck st i toSq (some kingSq) then none
          else some (i, toSq))
    else []
  | none => []

/-- `allLegalMoves(state, color)` (the consolidated, pin-aware variant). -/
def allLegalMoves (st : State) (color : Color) : List (Int × Int) :=
  let kingSq := findKing st color
  if kingSq = -1 then []
  else
    let enemy := other color
    let atk := attackersToSquare st kingSq enemy
    if 2 ≤ atk.length then
      (kingMoves st kingSq).filterMap (fun toSq =>
        if leavesKingInCheck st kingSq toSq (some kingSq) then none
        else some (kingSq, toSq))
    else
      let checkerSq : Int :=
        match atk with
        | a :: _ => a.1
        | [] => -1
      let blockSquares : Option (List Int) :=
        match atk with
        | (_, some l) :: _ => if l ≠ [] then some l else none
        | _ => none
      let pins := computePins st color kingSq
      sq64.flatMap
        (legalFromSquare st color atk.length checkerSq blockSquares pins kingSq)

def backRank : List PieceKind :=
  [PieceKind.R, PieceKind.N, PieceKind.B, PieceKind.Q,
   PieceKind.K, PieceKind.B, PieceKind.N, PieceKind.R]

/-- `board.js` `makeInitialBoard()`. -/
def makeInitialBoard : Board :=
  (List.range 64).map (fun i =>
    let r := i / 8
    let f := i % 8
    if r = 0 then some { c := Color.b, t := backRank.getD f PieceKind.P }
    else if r = 1 then some { c := Color.b, t := PieceKind.P }
    else if r = 6 then some { c := Color.w, t := PieceKind.P }
    else if r = 7 then some { c := Color.w, t := backRank.getD f PieceKind.P }
    else none)

/-- The game state built at the top of `main.js`. -/
def initialState : State :=
  { board := makeInitialBoard
    turn := Color.w
    castleRight := ['K', 'Q', 'k', 'q']
    ep := none
    halfmove := 0
    fullmove := 1 }

def castleOrder : List Char := ['K', 'Q', 'k', 'q']

/-- `rules.js` `removeCastleRight(s, ...codes)`: drop the codes, keep the
    canonical `KQkq` order. -/
def removeCastleRight (s : State) (codes : List Char) : State :=
  let kept := s.castleRight.filter (fun c => ! codes.contains c)
  { s with castleRight := castleOrder.filter (fun x => kept.contains x) }

/-- `pure.js` `cloneState` (a pure value copy here). -/
def cloneState (s : State) : State := s

/-- `pure.js` `applyMovePure(state, from, to)`. -/
def applyMovePure (s : State) (fromSq toSq : Int) : State :=
  match bget s.board fromSq with
  | none => s
  | some mover =>
    let fromRF := fromIndex fromSq
    let toRF := fromIndex toSq
    let dir : Int := if mover.c = Color.w then -1 else 1
    let isCastle := mover.t = PieceKind.K ∧
      ((toRF.f - fromRF.f).natAbs = 2)
    let isEP := mover.t = PieceKind.P ∧ s.ep = some toSq ∧ fromRF.f ≠ toRF.f
    let isPromotion := mover.t = PieceKind.P ∧ (toRF.r = 0 ∨ toRF.r = 7)
    let capturedIndex := if isEP then toIndex (toRF.r - dir) toRF.f else toSq
    let captured := bget s.board capturedIndex
    let s1 :=
      if mover.t = PieceKind.P ∨ captured ≠ none then
        { s with halfmove := 0 }
      else { s with halfmove := s.halfmove + 1 }
    let b1 := bset s1.board toSq (some mover)
    let b2 := bset b1 fromSq none
    let b3 := if isEP then bset b2 capturedIndex none else b2
    let b4 :=
      if isPromotion then
        bset b3 toSq (some { c := mover.c, t := PieceKind.Q })
      else b3
    let s2 := { s1 with board := b4 }
    let rookShift := fun (b : Board) (rTo rFrom : Int) =>
      bset (bset b rTo (bget b rFrom)) rFrom none
    let s3 :=
      if isCastle then
        if mover.c = Color.w then
          let bC :=
            if toSq = toIndex 7 6 then rookShift s2.board (toIndex 7 5) (toIndex 7 7)
            else rookShift s2.board (toIndex 7 3) (toIndex 7 0)
          removeCastleRight { s2 with board := bC } ['K', 'Q']
        else
          let bC :=
            if toSq = toIndex 0 6 then rookShift s2.board (toIndex 0 5) (toIndex 0 7)
            else rookShift s2.board (toIndex 0 3) (toIndex 0 0)
          removeCastleRight { s2 with board := bC } ['k', 'q']
      else s2
    let s4 :=
      if mover.t = PieceKind.P ∧ (toRF.r - fromRF.r).natAbs = 2 then
        { s3 with ep := some (toIndex ((toRF.r + fromRF.r) / 2) fromRF.f) }
      else { s3 with ep := none }
    let s5 :=
      if mover.t = PieceKind.K then
        if mover.c = Color.w then removeCastleRight s4 ['K', 'Q']
        else removeCastleRight s4 ['k', 'q']
      else s4
    let s6 :=
      if mover.t = PieceKind.R then
        let a := if fromSq = toIndex 7 0 then removeCastleRight s5 ['Q'] else s5
        let b := if fromSq = toIndex 7 7 then removeCastleRight a ['K'] else a
        let c := if fromSq = toIndex 0 0 then removeCastleRight b ['q'] else b
        if fromSq = toIndex 0 7 then removeCastleRight c ['k'] else c
      else s5
    let s7 :=
      match captured with
      | some cap =>
        if cap.t = PieceKind.R then
          let a := if toSq = toIndex 7 0 then removeCastleRight s6 ['Q'] else s6
          let b := if toSq = toIndex 7 7 then removeCastleRight a ['K'] else a
          let c := if toSq = toIndex 0 0 then removeCastleRight b ['q'] else b
          if toSq = toIndex 0 7 then removeCastleRight c ['k'] else c
        else s6
      | none => s6
    let s8 := { s7 with turn := other s7.turn }
    if s8.turn = Color.w then { s8 with fullmove := s8.fullmove + 1 } else s8

/-! ### Board read/write lemmas -/

theorem bset_bget_self (b : Board) (i : Int) : bset b i (bget b i) = b := by
  unfold bset bget
  split
  · next h =>
    apply List.ext_getElem?
    intro n
    rw [List.getElem?_set]
    split
    · next he =>
      subst he
      simp only [List.getD_eq_getElem?_getD]
      cases hx : b[i.toNat]? with
      | none =>
        have hlen : b.length ≤ i.toNat := by
          simpa using List.getElem?_eq_none_iff.mp hx
        simp [hx, if_neg (Nat.not_lt.mpr hlen)]
      | some v =>
        have hlen : i.toNat < b.length := by
          by_contra hge
          rw [List.getElem?_eq_none (by omega)] at hx
          exact Option.noConfusion hx
        simp [hx, if_pos hlen]
    · rfl
  · rfl

theorem bset_bset_same (b : Board) (i : Int) (v w : Option Piece) :
    bset (bset b i v) i w = bset b i w := by
  unfold bset
  split
  · simp [List.set_set]
  · rfl

theorem bset_comm (b : Board) (i j : Int) (v w : Option Piece) (h : i ≠ j) :
    bset (bset b i v) j w = bset (bset b j w) i v := by
  unfold bset
  by_cases hi : 0 ≤ i ∧ i < 64 <;> by_cases hj : 0 ≤ j ∧ j < 64 <;>
    simp [hi, hj]
  exact List.set_comm _ _ _ (by omega)

theorem bget_bset_ne (b : Board) (i j : Int) (v : Option Piece) (h : i ≠ j) :
    bget (bset b i v) j = bget b j := by
  unfold bset bget
  by_cases hi : 0 ≤ i ∧ i < 64 <;> by_cases hj : 0 ≤ j ∧ j < 64 <;>
    simp [hi, hj]
  rw [List.getElem?_set_ne (by omega)]

theorem sq_decomp (i : Int) (h0 : 0 ≤ i) (h1 : i < 64) :
    (fromIndex i).r * 8 + (fromIndex i).f = i ∧
      0 ≤ (fromIndex i).r ∧ (fromIndex i).r < 8 ∧
      0 ≤ (fromIndex i).f ∧ (fromIndex i).f < 8 := by
  unfold fromIndex
  simp only
  rw [Int.fdiv_eq_ediv _ (by norm_num), Int.tmod_eq_emod h0 (by norm_num)]
  omega


/-! ### C1 support: pseudo-move targets never hold an own-side piece -/

def noOwnAt (st : State) (c : Color) (toSq : Int) : Prop :=
  ∀ q, bget st.board toSq = some q → q.c ≠ c

theorem bget_some_range (b : Board) (i : Int) (p : Piece)
    (h : bget b i = some p) : 0 ≤ i ∧ i < 64 := by
  unfold bget at h
  by_cases hr : 0 ≤ i ∧ i < 64
  · exact hr
  · simp [hr] at h

theorem bset_length (b : Board) (i : Int) (v : Option Piece) :
    (bset b i v).length = b.length := by
  unfold bset
  split <;> simp

theorem bget_bset_eq (b : Board) (i : Int) (v : Option Piece)
    (hlen : b.length = 64) (h0 : 0 ≤ i) (h1 : i < 64) :
    bget (bset b i v) i = v := by
  unfold bget bset
  have hi : i.toNat < b.length := by omega
  simp only [if_pos (And.intro h0 h1)]
  rw [List.getD_eq_getElem?_getD, List.getElem?_set_self' ]
  simp [hi]

theorem toIndex_fromIndex (r f : Int) (h0 : 0 ≤ r) (h1 : r < 8)
    (h2 : 0 ≤ f) (h3 : f < 8) : fromIndex (toIndex r f) = RF.mk r f := by
  unfold fromIndex toIndex
  have hnn : (0 : Int) ≤ r * 8 + f := by omega
  rw [Int.fdiv_eq_ediv _ (by norm_num), Int.tmod_eq_emod hnn (by norm_num)]
  have hr : (r * 8 + f) / 8 = r := by omega
  have hf : (r * 8 + f) % 8 = f := by omega
  rw [hr, hf]

theorem find?_congr (l : List Int) (p q : Int → Bool)
    (h : ∀ a ∈ l, p a = q a) : l.find? p = l.find? q := by
  induction l with
  | nil => rfl
  | cons x xs ih =>
    have hx := h x (List.mem_cons_self _ _)
    rw [List.find?_cons, List.find?_cons, hx]
    split
    · rfl
    · exact ih (fun a ha => h a (List.mem_cons_of_mem _ ha))

theorem canLand_no_own (st : State) (c : Color) (i : Int)
    (h : canLand st c i = true) : noOwnAt st c i := by
  intro q hq
  unfold canLand at h
  rw [hq] at h
  simpa using h

theorem blocked_no_own (st : State) (c : Color) (i : Int)
    (h : blocked st c i = false) : noOwnAt st c i := by
  intro q hq
  unfold blocked at h
  rw [hq] at h
  simpa using h

theorem mem_ite_singleton {c : Prop} [Decidable c] {a t : Int}
    (h : t ∈ (if c then [a] else [])) : t = a ∧ c := by
  by_cases hc : c
  · rw [if_pos hc] at h
    exact ⟨List.mem_singleton.mp h, hc⟩
  · rw [if_neg hc] at h
    simp at h

theorem ray_no_own (st : State) (c : Color) (toSq : Int) :
    ∀ (n : Nat) (r f dr df : Int), toSq ∈ ray st c r f dr df n →
      noOwnAt st c toSq := by
  intro n
  induction n with
  | zero => intro r f dr df h; simp [ray] at h
  | succ m ih =>
    intro r f dr df h
    unfold ray at h
    by_cases hb : onBoard (r + dr) (f + df) = true
    · rcases hbl : blocked st c (toIndex (r + dr) (f + df)) with _ | _
      · rcases hg : bget st.board (toIndex (r + dr) (f + df)) with _ | q
        · simp only [hb, hbl, hg, if_true, Bool.false_eq_true, if_false,
            List.mem_cons, ite_true] at h
          rcases h with h | h
          · subst h; exact blocked_no_own st c _ hbl
          · exact ih _ _ _ _ h
        · simp only [hb, hbl, hg, if_true, Bool.false_eq_true, if_false,
            List.mem_singleton, ite_true] at h
          subst h
          exact blocked_no_own st c _ hbl
      · simp [hb, hbl] at h
    · simp [hb] at h

theorem knightMoves_no_own (st : State) (i toSq : Int)
    (p : Piece) (hp : bget st.board i = some p)
    (h : toSq ∈ knightMoves st i) : noOwnAt st p.c toSq := by
  unfold knightMoves at h
  rw [hp] at h
  by_cases hk : p.t = PieceKind.N
  · simp only [hk, if_true, ite_true, List.mem_filterMap] at h
    obtain ⟨d, _, hd⟩ := h
    split at hd
    · next hcond =>
      cases hd
      exact canLand_no_own st p.c _ (by exact_mod_cast hcond.2)
    · exact absurd hd (by simp)
  · simp [hk] at h

theorem slideMoves_no_own (st : State) (i toSq : Int) (p : Piece)
    (dirs : List (Int × Int)) (h : toSq ∈ slideMoves st i p dirs) :
    noOwnAt st p.c toSq := by
  unfold slideMoves at h
  rw [List.mem_flatMap] at h
  obtain ⟨d, _, hd⟩ := h
  exact ray_no_own st p.c toSq 7 _ _ _ _ hd

theorem kingBasic_no_own (st : State) (i toSq : Int) (p : Piece)
    (h : toSq ∈ kingDeltas.filterMap (fun d =>
      if onBoard ((fromIndex i).r + d.1) ((fromIndex i).f + d.2) ∧
          canLand st p.c (toIndex ((fromIndex i).r + d.1)
            ((fromIndex i).f + d.2)) then
        some (toIndex ((fromIndex i).r + d.1) ((fromIndex i).f + d.2))
      else none)) : noOwnAt st p.c toSq := by
  rw [List.mem_filterMap] at h
  obtain ⟨d, _, hd⟩ := h
  split at hd
  · next hcond =>
    cases hd
    exact canLand_no_own st p.c _ (by exact_mod_cast hcond.2)
  · exact absurd hd (by simp)

theorem kingMoves_no_own (st : State) (i toSq : Int)
    (p : Piece) (hp : bget st.board i = some p)
    (h : toSq ∈ kingMoves st i) : noOwnAt st p.c toSq := by
  unfold kingMoves at h
  rw [hp] at h
  by_cases hk : p.t = PieceKind.K
  · simp only [hk, ite_true] at h
    by_cases hstart : (p.c = Color.w ∧ (fromIndex i).r = 7 ∧ (fromIndex i).f = 4) ∨
        (p.c = Color.b ∧ (fromIndex i).r = 0 ∧ (fromIndex i).f = 4)
    · rw [if_neg (not_not_intro hstart)] at h
      by_cases hcw : p.c = Color.w
      · rw [if_pos hcw] at h
        rw [List.mem_append, List.mem_append] at h
        rcases h with (h | h) | h
        · exact kingBasic_no_own st i toSq p h
        · obtain ⟨he, hc⟩ := mem_ite_singleton h
          subst he
          intro q hq
          simp only [Bool.and_eq_true] at hc
          have hemp := hc.1.1.1.1.2
          rw [hq] at hemp
          simp at hemp
        · obtain ⟨he, hc⟩ := mem_ite_singleton h
          subst he
          intro q hq
          simp only [Bool.and_eq_true] at hc
          have hemp := hc.1.1.1.1.1.2
          rw [hq] at hemp
          simp at hemp
      · rw [if_neg hcw] at h
        rw [List.mem_append, List.mem_append] at h
        rcases h with (h | h) | h
        · exact kingBasic_no_own st i toSq p h
        · obtain ⟨he, hc⟩ := mem_ite_singleton h
          subst he
          intro q hq
          simp only [Bool.and_eq_true] at hc
          have hemp := hc.1.1.1.1.2
          rw [hq] at hemp
          simp at hemp
        · obtain ⟨he, hc⟩ := mem_ite_singleton h
          subst he
          intro q hq
          simp only [Bool.and_eq_true] at hc
          have hemp := hc.1.1.1.1.1.2
          rw [hq] at hemp
          simp at hemp
    · rw [if_pos hstart] at h
      exact kingBasic_no_own st i toSq p h
  · simp [hk] at h

theorem pawnMoves_no_own (st : State) (i toSq : Int) (p : Piece)
    (hp : bget st.board i = some p)
    (hep : ∀ e, st.ep = some e → bget st.board e = none)
    (h : toSq ∈ pawnMoves st i) : noOwnAt st p.c toSq := by
  unfold pawnMoves at h
  rw [hp] at h
  by_cases hk : p.t = PieceKind.P
  · simp only [hk, ite_true] at h
    rw [List.mem_append, List.mem_append] at h
    rcases h with (h | h) | h
    · -- pushes: target squares are empty
      intro q hq
      repeat' split at h
      all_goals
        simp only [List.mem_append, List.mem_singleton, List.not_mem_nil] at h
      all_goals
        first
          | exact h.elim
          | (rcases h with h | h <;> (subst h; simp_all))
          | (subst h; simp_all)
    · -- captures: target holds an enemy piece
      rw [List.mem_filterMap] at h
      obtain ⟨d, _, hd⟩ := h
      repeat' split at hd
      all_goals
        first
          | exact Option.noConfusion hd
          | (injection hd with hd
             subst hd
             intro q2 hq2
             simp_all)
    · -- en passant: target square empty by the ep invariant
      rcases hv : st.ep with _ | epv
      · rw [hv] at h; simp at h
      · rw [hv] at h
        have hte : toSq = epv := by
          repeat' split at h
          all_goals simp_all [List.mem_singleton]
        intro q hq
        have hemp := hep epv hv
        rw [hte] at hq
        rw [hq] at hemp
        exact Option.noConfusion hemp
  · simp [hk] at h

theorem bishopMoves_no_own (st : State) (i toSq : Int) (p : Piece)
    (hp : bget st.board i = some p) (h : toSq ∈ bishopMoves st i) :
    noOwnAt st p.c toSq := by
  unfold bishopMoves at h
  rw [hp] at h
  by_cases hk : p.t = PieceKind.B
  · simp only [hk, ite_true] at h
    exact slideMoves_no_own st i toSq p _ h
  · simp [hk] at h

theorem rookMoves_no_own (st : State) (i toSq : Int) (p : Piece)
    (hp : bget st.board i = some p) (h : toSq ∈ rookMoves st i) :
    noOwnAt st p.c toSq := by
  unfold rookMoves at h
  rw [hp] at h
  by_cases hk : p.t = PieceKind.R
  · simp only [hk, ite_true] at h
    exact slideMoves_no_own st i toSq p _ h
  · simp [hk] at h

theorem queenMoves_no_own (st : State) (i toSq : Int) (p : Piece)
    (hp : bget st.board i = some p) (h : toSq ∈ queenMoves st i) :
    noOwnAt st p.c toSq := by
  unfold queenMoves at h
  rw [hp] at h
  by_cases hk : p.t = PieceKind.Q
  · simp only [hk, ite_true] at h
    exact slideMoves_no_own st i toSq p _ h
  · simp [hk] at h

theorem generateMoves_no_own (st : State) (i toSq : Int) (p : Piece)
    (hp : bget st.board i = some p)
    (hep : ∀ e, st.ep = some e → bget st.board e = none)
    (h : toSq ∈ generateMoves st i) : noOwnAt st p.c toSq := by
  unfold generateMoves at h
  rw [hp] at h
  cases hpt : p.t with
  | P => simp only [hpt] at h; exact pawnMoves_no_own st i toSq p hp hep h
  | N => simp only [hpt] at h; exact knightMoves_no_own st i toSq p hp h
  | B => simp only [hpt] at h; exact bishopMoves_no_own st i toSq p hp h
  | R => simp only [hpt] at h; exact rookMoves_no_own st i toSq p hp h
  | Q => simp only [hpt] at h; exact queenMoves_no_own st i toSq p hp h
  | K => simp only [hpt] at h; exact kingMoves_no_own st i toSq p hp h

theorem undo_chain (b : Board) (fromSq toSq : Int) (savedFrom : Piece)
    (hsf : bget b fromSq = some savedFrom) :
    bset (bset (bset (bset b toSq (some savedFrom)) fromSq none)
      fromSq (some savedFrom)) toSq (bget b toSq) = b := by
  rw [bset_bset_same]
  by_cases he : fromSq = toSq
  · subst he
    rw [bset_bset_same, bset_bset_same]
    exact bset_bget_self b fromSq
  · rw [bset_comm _ _ _ _ _ he, bset_bset_same]
    have h1 : bset b toSq (bget b toSq) = b := bset_bget_self b toSq
    rw [h1, ← hsf]
    exact bset_bget_self b fromSq

/-- C10: the do/undo legality check `leavesKingInCheck` is side-effect free:
for every state and every pair of squares (and any known-king argument), the
state standing after the undo writes equals the input state — every board
square holds exactly the piece it held before (including an en-passant
captured pawn restored to its square), and `turn`, `castleRight`, `ep`,
`halfmove` and `fullmove` are untouched. -/
theorem leavesKingInCheck_restores_state (st : State) (fromSq toSq : Int)
    (k : Option Int) (hf0 : 0 ≤ fromSq) (hf1 : fromSq < 64)
    (ht0 : 0 ≤ toSq) (ht1 : toSq < 64) :
    (leavesKingInCheckRun st fromSq toSq k).2 = st := by
  unfold leavesKingInCheckRun
  cases hm : bget st.board fromSq with
  | none => rfl
  | some mover =>
    simp only
    by_cases hEP : lkicIsEP st fromSq toSq mover
    · unfold lkicDoBoard lkicEpIdx
      simp only [if_pos hEP]
      set dir : Int := if mover.c = Color.w then -1 else 1 with hdir
      set ep : Int := toIndex ((fromIndex toSq).r - dir) (fromIndex toSq).f
        with hep
      have hdirpm : dir = -1 ∨ dir = 1 := by
        rw [hdir]; split <;> simp
      obtain ⟨hdf, _, _, hff⟩ := sq_decomp fromSq hf0 hf1
      obtain ⟨hdt, _, _, htf⟩ := sq_decomp toSq ht0 ht1
      have hepTo : ep ≠ toSq := by
        rw [hep]; unfold toIndex; omega
      have hepFrom : ep ≠ fromSq := by
        rw [hep]; unfold toIndex
        intro hc
        apply hEP.2.2.1
        omega
      have hb1from : bget (bset st.board ep none) fromSq = some mover := by
        rw [bget_bset_ne _ _ _ _ hepFrom]; exact hm
      have hb1to : bget st.board toSq = bget (bset st.board ep none) toSq := by
        rw [bget_bset_ne _ _ _ _ hepTo]
      rw [hb1to]
      rw [undo_chain (bset st.board ep none) fromSq toSq mover hb1from]
      rw [bset_bset_same, bset_bget_self]
    · unfold lkicDoBoard
      simp only [if_neg hEP]
      rw [undo_chain st.board fromSq toSq mover hm]

/-- Witness for C10 at a concrete input: the pawn move e2-e4 on the initial
    position. -/
theorem leavesKingInCheck_restores_state_witness :
    (0 : Int) ≤ 52 ∧ (52 : Int) < 64 ∧ (0 : Int) ≤ 36 ∧ (36 : Int) < 64 ∧
      (leavesKingInCheckRun initialState 52 36 none).2 = initialState :=
  ⟨by decide, by decide, by decide, by decide,
    leavesKingInCheck_restores_state initialState 52 36 none
      (by decide) (by decide) (by decide) (by decide)⟩


theorem pawn_ep_branch (st : State) (i epv d : Int) (p : Piece)
    (h : epv ∈ (if (fromIndex epv).r = (fromIndex i).r + d ∧
        ((fromIndex epv).f - (fromIndex i).f = 1 ∨
          (fromIndex epv).f - (fromIndex i).f = -1) then
      (match bget st.board (toIndex (fromIndex i).r (fromIndex epv).f) with
       | some adj =>
         if adj.t = PieceKind.P ∧ adj.c ≠ p.c then [epv] else []
       | none => ([] : List Int))
      else [])) :
    (fromIndex epv).r = (fromIndex i).r + d ∧
      ∃ adj, bget st.board (toIndex (fromIndex i).r (fromIndex epv).f) =
          some adj ∧ adj.t = PieceKind.P ∧ adj.c ≠ p.c := by
  split at h
  · next hcond =>
    rcases hadj : bget st.board
        (toIndex (fromIndex i).r (fromIndex epv).f) with _ | adj
    · rw [hadj] at h; simp at h
    · rw [hadj] at h
      simp only at h
      obtain ⟨-, hpc⟩ := mem_ite_singleton h
      exact ⟨hcond.1, adj, rfl, hpc.1, hpc.2⟩
  · simp at h

theorem pawnMoves_ep_struct (st : State) (i toSq : Int) (p : Piece)
    (hp : bget st.board i = some p)
    (h : toSq ∈ pawnMoves st i)
    (hepv : st.ep = some toSq)
    (hempty : bget st.board toSq = none)
    (hfile : (fromIndex i).f ≠ (fromIndex toSq).f) :
    (fromIndex toSq).r =
        (fromIndex i).r + (if p.c = Color.w then (-1 : Int) else 1) ∧
      ∃ adj, bget st.board (toIndex (fromIndex i).r (fromIndex toSq).f) =
          some adj ∧ adj.t = PieceKind.P ∧ adj.c ≠ p.c := by
  obtain ⟨hi0, hi1⟩ := bget_some_range st.board i p hp
  obtain ⟨hdec, hr0, hr1, hf0, hf1⟩ := sq_decomp i hi0 hi1
  unfold pawnMoves at h
  rw [hp] at h
  by_cases hk : p.t = PieceKind.P
  · simp only [hk, ite_true] at h
    rw [List.mem_append, List.mem_append] at h
    rcases h with (h | h) | h
    · -- pushes have the mover's file: contradiction with hfile
      exfalso
      repeat' split at h
      all_goals
        simp only [onBoard, decide_eq_true_eq, List.mem_append,
          List.mem_singleton, List.not_mem_nil] at *
      all_goals
        first
          | exact h
          | (rcases h with h | h <;>
              (apply hfile
               rw [h, toIndex_fromIndex _ _ (by omega) (by omega) hf0 hf1]))
          | (apply hfile
             rw [h, toIndex_fromIndex _ _ (by omega) (by omega) hf0 hf1])
    · -- captures land on occupied squares: contradiction with hempty
      exfalso
      rw [List.mem_filterMap] at h
      obtain ⟨d, _, hd⟩ := h
      repeat' split at hd
      all_goals
        first
          | exact Option.noConfusion hd
          | (injection hd with hd
             subst hd
             simp_all)
    · -- the en-passant branch itself
      rcases hv : st.ep with _ | epv
      · rw [hv] at hepv
        exact Option.noConfusion hepv
      · have hee : epv = toSq := by
          rw [hv] at hepv
          exact Option.some.inj hepv
        subst hee
        rw [hv] at h
        simp only at h
        exact pawn_ep_branch st i epv _ p h
  · simp [hk] at h



theorem bget_out (b : Board) (i : Int) (h : ¬ (0 ≤ i ∧ i < 64)) :
    bget b i = none := by
  unfold bget
  rw [if_neg h]

theorem ownKingAt_doBoard (st : State) (c : Color) (fromSq toSq : Int)
    (mover : Piece) (hlen : st.board.length = 64)
    (hm : bget st.board fromSq = some mover)
    (hnk : mover.t ≠ PieceKind.K)
    (hNoOwnTo : noOwnAt st c toSq)
    (hEPadj : lkicIsEP st fromSq toSq mover →
      ∃ adj, bget st.board (lkicEpIdx st fromSq toSq mover) = some adj ∧
        adj.c ≠ c) :
    ∀ j, ownKingAt (lkicDoBoard st fromSq toSq mover) c j =
      ownKingAt st.board c j := by
  intro j
  obtain ⟨hf0, hf1⟩ := bget_some_range _ _ _ hm
  unfold lkicDoBoard
  set b1 := if lkicIsEP st fromSq toSq mover then
    bset st.board (lkicEpIdx st fromSq toSq mover) none else st.board with hb1def
  have hb1len : b1.length = 64 := by
    rw [hb1def]; split
    · rw [bset_length]; exact hlen
    · exact hlen
  by_cases hjf : j = fromSq
  · subst hjf
    have hL : bget (bset (bset b1 toSq (some mover)) j none) j = none := by
      exact bget_bset_eq _ _ _ (by rw [bset_length]; exact hb1len) hf0 hf1
    unfold ownKingAt
    rw [hL, hm]
    simp [hnk]
  · by_cases hjt : j = toSq
    · subst hjt
      have hL : bget (bset (bset b1 j (some mover)) fromSq none) j =
          bget (bset b1 j (some mover)) j := by
        exact bget_bset_ne _ _ _ _ (fun he => hjf he.symm)
      by_cases hjr : 0 ≤ j ∧ j < 64
      · have hL2 : bget (bset b1 j (some mover)) j = some mover :=
          bget_bset_eq _ _ _ hb1len hjr.1 hjr.2
        unfold ownKingAt
        rw [hL, hL2]
        rcases hq : bget st.board j with _ | q
        · simp [hnk]
        · have := hNoOwnTo q hq
          simp [hnk, this]
      · unfold ownKingAt
        rw [hL, bget_out _ _ hjr, bget_out _ _ hjr]
    · by_cases hEP : lkicIsEP st fromSq toSq mover
      · by_cases hje : j = lkicEpIdx st fromSq toSq mover
        · subst hje
          obtain ⟨adj, hadj, hadjc⟩ := hEPadj hEP
          obtain ⟨he0, he1⟩ := bget_some_range _ _ _ hadj
          have hL : bget (bset (bset b1 toSq (some mover)) fromSq none)
              (lkicEpIdx st fromSq toSq mover) =
              bget b1 (lkicEpIdx st fromSq toSq mover) := by
            rw [bget_bset_ne _ _ _ _ (fun he2 => hjf he2.symm),
              bget_bset_ne _ _ _ _ (fun he2 => hjt he2.symm)]
          have hL2 : bget b1 (lkicEpIdx st fromSq toSq mover) = none := by
            rw [hb1def, if_pos hEP]
            exact bget_bset_eq _ _ _ hlen he0 he1
          unfold ownKingAt
          rw [hL, hL2, hadj]
          simp [hadjc]
        · have hL : bget (bset (bset b1 toSq (some mover)) fromSq none) j =
              bget st.board j := by
            rw [bget_bset_ne _ _ _ _ (fun he => hjf he.symm),
              bget_bset_ne _ _ _ _ (fun he => hjt he.symm), hb1def,
              if_pos hEP, bget_bset_ne _ _ _ _ (fun he => hje he.symm)]
          unfold ownKingAt
          rw [hL]
      · have hL : bget (bset (bset b1 toSq (some mover)) fromSq none) j =
            bget st.board j := by
          rw [bget_bset_ne _ _ _ _ (fun he => hjf he.symm),
            bget_bset_ne _ _ _ _ (fun he => hjt he.symm), hb1def, if_neg hEP]
        unfold ownKingAt
        rw [hL]



theorem findKing_congr (st : State) (b2 : Board) (c : Color)
    (h : ∀ j, ownKingAt b2 c j = ownKingAt st.board c j) :
    findKing { st with board := b2 } c = findKing st c := by
  unfold findKing
  simp only
  rw [find?_congr sq64 _ _ (fun a _ => h a)]

theorem findKing_found (st : State) (c : Color) (h : findKing st c ≠ -1) :
    ∃ p, bget st.board (findKing st c) = some p ∧ p.c = c ∧
      p.t = PieceKind.K := by
  unfold findKing at *
  cases hf : sq64.find? (ownKingAt st.board c) with
  | none => rw [hf] at h; exact absurd rfl h
  | some k =>
    simp only at h ⊢
    have hk := List.find?_some hf
    unfold ownKingAt at hk
    rcases hq : bget st.board k with _ | p
    · rw [hq] at hk; exact Bool.noConfusion hk
    · rw [hq] at hk
      simp only [decide_eq_true_eq] at hk
      exact ⟨p, rfl, hk.1, hk.2⟩

theorem leavesKingInCheck_none_eq (st : State) (fromSq toSq : Int) (p : Piece)
    (hlen : st.board.length = 64)
    (hp : bget st.board fromSq = some p)
    (hNoOwnTo : noOwnAt st p.c toSq)
    (hEPadj : lkicIsEP st fromSq toSq p →
      ∃ adj, bget st.board (lkicEpIdx st fromSq toSq p) = some adj ∧
        adj.c ≠ p.c) :
    leavesKingInCheck st fromSq toSq none =
      leavesKingInCheck st fromSq toSq (some (findKing st p.c)) := by
  unfold leavesKingInCheck leavesKingInCheckRun
  rw [hp]
  simp only
  by_cases hK : p.t = PieceKind.K
  · rw [if_pos hK, if_pos hK]
  · rw [if_neg hK, if_neg hK]
    have hstab := findKing_congr st (lkicDoBoard st fromSq toSq p) p.c
      (ownKingAt_doBoard st p.c fromSq toSq p hlen hp hK hNoOwnTo hEPadj)
    rw [hstab]



theorem allLegalMoves_mem (st : State) (c : Color) (fromSq toSq : Int)
    (h : (fromSq, toSq) ∈ allLegalMoves st c) :
    ∃ p, bget st.board fromSq = some p ∧ p.c = c ∧
      toSq ∈ generateMoves st fromSq ∧
      leavesKingInCheck st fromSq toSq (some (findKing st c)) = false := by
  unfold allLegalMoves at h
  by_cases hkq : findKing st c = -1
  · simp [hkq] at h
  · rw [if_neg hkq] at h
    obtain ⟨pk, hpk, hpkc, hpkt⟩ := findKing_found st c hkq
    by_cases hdbl : 2 ≤ (attackersToSquare st (findKing st c) (other c)).length
    · rw [if_pos hdbl] at h
      rw [List.mem_filterMap] at h
      obtain ⟨t, htmem, htf⟩ := h
      split at htf
      · exact Option.noConfusion htf
      · next hlkic =>
        rw [Option.some.injEq, Prod.mk.injEq] at htf
        obtain ⟨hfe, hte⟩ := htf
        subst hfe
        subst hte
        refine ⟨pk, hpk, hpkc, ?_, ?_⟩
        · unfold generateMoves
          rw [hpk]
          simp only [hpkt]
          exact htmem
        · simpa using hlkic
    · rw [if_neg hdbl] at h
      rw [List.mem_flatMap] at h
      obtain ⟨i, _, hmem⟩ := h
      unfold legalFromSquare at hmem
      rcases hq : bget st.board i with _ | p
      · rw [hq] at hmem; simp at hmem
      · rw [hq] at hmem
        simp only at hmem
        by_cases hpc : p.c = c
        · rw [if_pos hpc] at hmem
          rw [List.mem_filterMap] at hmem
          obtain ⟨t, htmem, htf⟩ := hmem
          split at htf
          · exact Option.noConfusion htf
          · split at htf
            · exact Option.noConfusion htf
            · split at htf
              · exact Option.noConfusion htf
              · next hlkic =>
                rw [Option.some.injEq, Prod.mk.injEq] at htf
                obtain ⟨hfe, hte⟩ := htf
                subst hfe
                subst hte
                exact ⟨p, hq, hpc, htmem, by simpa using hlkic⟩
        · rw [if_neg hpc] at hmem
          simp at hmem



/-- C1: move-generation soundness.  For every position holding the data-model
invariants (a 64-slot board; the en-passant square, when set, is the square a
pawn skipped over, hence empty) and every move `(from, to)` in the list
returned by `allLegalMoves(state, color)`, the do/undo legality test
`leavesKingInCheck(state, from, to)` is false: applying the move leaves the
mover's king not attacked by the opposing side. -/
theorem allLegalMoves_sound (st : State) (c : Color) (fromSq toSq : Int)
    (hlen : st.board.length = 64)
    (hep : ∀ e, st.ep = some e → bget st.board e = none)
    (hmem : (fromSq, toSq) ∈ allLegalMoves st c) :
    leavesKingInCheck st fromSq toSq none = false := by
  obtain ⟨p, hp, hpc, hgen, hflt⟩ := allLegalMoves_mem st c fromSq toSq hmem
  have hNoOwn : noOwnAt st p.c toSq :=
    generateMoves_no_own st fromSq toSq p hp hep hgen
  have hEPadj : lkicIsEP st fromSq toSq p →
      ∃ adj, bget st.board (lkicEpIdx st fromSq toSq p) = some adj ∧
        adj.c ≠ p.c := by
    intro hIsEP
    have hIsEP2 := hIsEP
    obtain ⟨hpt, hepv, hfile, hempty⟩ := hIsEP
    have hpm : toSq ∈ pawnMoves st fromSq := by
      unfold generateMoves at hgen
      rw [hp] at hgen
      simp only [hpt] at hgen
      exact hgen
    obtain ⟨hrank, adj, hadj, hadjP, hadjC⟩ :=
      pawnMoves_ep_struct st fromSq toSq p hp hpm hepv hempty hfile
    refine ⟨adj, ?_, hadjC⟩
    unfold lkicEpIdx
    rw [if_pos hIsEP2]
    have hrr : (fromIndex toSq).r - (if p.c = Color.w then (-1 : Int) else 1) =
        (fromIndex fromSq).r := by
      rw [hrank]; ring
    rw [hrr]
    exact hadj
  have heq := leavesKingInCheck_none_eq st fromSq toSq p hlen hp hNoOwn hEPadj
  rw [hpc] at heq
  rw [heq]
  exact hflt


/-! ### FEN codec (`fen.js`) -/

def filesList : List Char := ['a', 'b', 'c', 'd', 'e', 'f', 'g', 'h']

def digitChar (n : Nat) : Char := Char.ofNat (48 + n)

/-- Decimal digits of a natural number, most significant first (the JS
    number-to-string conversion for the clock fields). -/
def natToChars (n : Nat) : List Char :=
  if _h : n < 10 then [digitChar n]
  else natToChars (n / 10) ++ [digitChar (n % 10)]
decreasing_by exact Nat.div_lt_self (by omega) (by norm_num)

def intToChars (i : Int) : List Char :=
  if i < 0 then '-' :: natToChars (-i).toNat else natToChars i.toNat

/-- `board.js` `algebraic(i) = files[f] + (8 - r)`. -/
def algebraic (i : Int) : List Char :=
  filesList.getD (fromIndex i).f.toNat 'a' :: intToChars (8 - (fromIndex i).r)

/-- `pieceToFenChar`: uppercase kind letter for white, lowercase for black. -/
def pieceToFenChar (p : Piece) : Char :=
  let upper : Char :=
    match p.t with
    | PieceKind.P => 'P'
    | PieceKind.N => 'N'
    | PieceKind.B => 'B'
    | PieceKind.R => 'R'
    | PieceKind.Q => 'Q'
    | PieceKind.K => 'K'
  if p.c = Color.w then upper else upper.toLower

/-- Inverse of the placement character encoding used by `loadFEN` (the JS
    version stores any non-digit character verbatim; only the twelve chess
    letters are representable in the typed board, and only they are emitted). -/
def charToPiece (ch : Char) : Option Piece :=
  let c := if ch.toUpper = ch then Color.w else Color.b
  match ch.toUpper with
  | 'P' => some { c := c, t := PieceKind.P }
  | 'N' => some { c := c, t := PieceKind.N }
  | 'B' => some { c := c, t := PieceKind.B }
  | 'R' => some { c := c, t := PieceKind.R }
  | 'Q' => some { c := c, t := PieceKind.Q }
  | 'K' => some { c := c, t := PieceKind.K }
  | _ => none

/-- One rank of the `toFEN` placement loop: pending `emptyCount` plus cells. -/
def emitRankAux : List (Option Piece) → Nat → List Char
  | [], cnt => if cnt ≠ 0 then [digitChar cnt] else []
  | none :: rest, cnt => emitRankAux rest (cnt + 1)
  | some p :: rest, cnt =>
    (if cnt ≠ 0 then [digitChar cnt] else []) ++
      pieceToFenChar p :: emitRankAux rest 0

/-- The eight cells of rank `r` read from the board. -/
def rankCells (b : Board) (r : Int) : List (Option Piece) :=
  (List.range 8).map (fun f => bget b (toIndex r (Int.ofNat f)))

def emitPlacement (b : Board) : List Char :=
  (emitRankAux (rankCells b 0) 0) ++ '/' ::
  (emitRankAux (rankCells b 1) 0) ++ '/' ::
  (emitRankAux (rankCells b 2) 0) ++ '/' ::
  (emitRankAux (rankCells b 3) 0) ++ '/' ::
  (emitRankAux (rankCells b 4) 0) ++ '/' ::
  (emitRankAux (rankCells b 5) 0) ++ '/' ::
  (emitRankAux (rankCells b 6) 0) ++ '/' ::
  (emitRankAux (rankCells b 7) 0)

def colorChar (c : Color) : Char :=
  match c with
  | Color.w => 'w'
  | Color.b => 'b'

/-- `toFEN(state)`: the six space-separated FEN fields. -/
def toFEN (st : State) : List Char :=
  let castle := if st.castleRight = [] then ['-'] else st.castleRight
  let ep :=
    match st.ep with
    | some e => if e = 0 then ['-'] else algebraic e
    | none => ['-']
  emitPlacement st.board ++ ' ' :: colorChar st.turn :: ' ' :: castle ++
    ' ' :: ep ++ ' ' :: intToChars st.halfmove ++ ' ' :: intToChars st.fullmove

/-- `fen.trim().split(/\s+/)`: whitespace-run splitting (space characters;
    the emitted FEN contains no other whitespace). -/
def splitWSAux : List Char → List Char → List (List Char)
  | [], acc => if acc.isEmpty then [] else [acc.reverse]
  | x :: rest, acc =>
    if x = ' ' then
      if acc.isEmpty then splitWSAux rest []
      else acc.reverse :: splitWSAux rest []
    else splitWSAux rest (x :: acc)

def splitWS (l : List Char) : List (List Char) := splitWSAux l []

/-- `placement.split("/")`. -/
def splitSlash : List Char → List Char → List (List Char)
  | [], acc => [acc.reverse]
  | x :: rest, acc =>
    if x = '/' then acc.reverse :: splitSlash rest []
    else splitSlash rest (x :: acc)

/-- One rank of the `loadFEN` placement loop: digits advance the file
    cursor, piece letters are written at `toIndex r f` (an unrepresentable
    character aborts the parse where JS would store a garbage piece). -/
def parseRankChars (r : Int) : List Char → Board → Int → Option Board
  | [], b, _ => some b
  | ch :: rest, b, f =>
    if ch.isDigit then parseRankChars r rest b (f + ((ch.toNat : Int) - 48))
    else
      match charToPiece ch with
      | some pc => parseRankChars r rest (bset b (toIndex r f) (some pc)) (f + 1)
      | none => none

/-- The `for (let r = 0; r < 8; r++)` loop over `ranks[r]`; a missing rank
    makes the JS loop throw, modelled as `none`. -/
def buildRanks : Nat → List (List Char) → Int → Board → Option Board
  | 0, _, _, b => some b
  | n + 1, ranks, r, b =>
    match ranks with
    | [] => none
    | chars :: rest =>
      match parseRankChars r chars b 0 with
      | some b2 => buildRanks n rest (r + 1) b2
      | none => none

def parseNatDigitsAux : List Char → Nat → Option Nat
  | [], acc => some acc
  | ch :: rest, acc =>
    if ch.isDigit then parseNatDigitsAux rest (acc * 10 + (ch.toNat - 48))
    else none

/-- `Number(...)` restricted to nonempty digit strings (other inputs produce
    `NaN` in JS, which the callers coerce with `|| 0` / `|| 1`). -/
def parseNatDigits (l : List Char) : Option Nat :=
  match l with
  | [] => none
  | _ => parseNatDigitsAux l 0

/-- `algebraicToIndex(sq) = toIndex(8 - Number(sq.slice(1)), files.indexOf(sq[0]))`. -/
def algebraicToIndex (sq : List Char) : Option Int :=
  match sq with
  | c0 :: rest =>
    match parseNatDigits rest with
    | some rnum =>
      if c0 ∈ filesList then
        some (toIndex (8 - (rnum : Int)) (filesList.indexOf c0))
      else none
    | none => none
  | [] => none

/-- `loadFEN(state, fen)`: parse the six fields and overwrite the state.
    Inputs outside what `toFEN` can emit (bad colors, bad piece letters,
    malformed squares) are rejected with `none` where the JS version would
    store unusable values. -/
def loadFEN (st : State) (fen : List Char) : Option State :=
  match splitWS fen with
  | placement :: active :: castleRight :: ep :: half :: full :: _ =>
    let ranks := splitSlash placement []
    match buildRanks 8 ranks 0 ((List.range 64).map (fun _ => none)) with
    | some builtBoard =>
      let turnP : Option Color :=
        if active = ['w'] then some Color.w
        else if active = ['b'] then some Color.b
        else none
      match turnP with
      | some turn =>
        let cr := if castleRight = ['-'] then [] else castleRight
        let epP : Option (Option Int) :=
          if ep = ['-'] then some none
          else
            match algebraicToIndex ep with
            | some i => some (some i)
            | none => none
        match epP with
        | some epVal =>
          let hm : Int := ((parseNatDigits half).getD 0 : Nat)
          let fmRaw : Nat := (parseNatDigits full).getD 0
          let fm : Int := if fmRaw = 0 then 1 else (fmRaw : Nat)
          some { st with
            board := builtBoard
            turn := turn
            castleRight := cr
            ep := epVal
            halfmove := hm
            fullmove := fm }
        | none => none
      | none => none
    | none => none
  | _ => none

/-- Witness for C1: the knight move b1-c3 on the initial position. -/
theorem allLegalMoves_sound_witness :
    initialState.board.length = 64 ∧
      ((57 : Int), (42 : Int)) ∈ allLegalMoves initialState Color.w ∧
      leavesKingInCheck initialState 57 42 none = false :=
  ⟨by decide, by decide,
    allLegalMoves_sound initialState Color.w 57 42 (by decide)
      (fun e he => Option.noConfusion he) (by decide)⟩

end Chess

namespace Chess

theorem digitChar_isDigit (n : Nat) (h : n ≤ 9) :
    (digitChar n).isDigit = true := by
  interval_cases n <;> decide

theorem digitChar_toNat (n : Nat) (h : n ≤ 9) :
    ((digitChar n).toNat : Int) - 48 = n := by
  interval_cases n <;> decide

theorem digitChar_toNat' (n : Nat) (h : n ≤ 9) :
    (digitChar n).toNat - 48 = n := by
  interval_cases n <;> decide

theorem digitChar_ne_space (n : Nat) (h : n ≤ 9) : digitChar n ≠ ' ' := by
  interval_cases n <;> decide

theorem digitChar_ne_slash (n : Nat) (h : n ≤ 9) : digitChar n ≠ '/' := by
  interval_cases n <;> decide

theorem pieceToFenChar_not_digit (p : Piece) :
    (pieceToFenChar p).isDigit = false := by
  rcases p with ⟨c, t⟩
  cases c <;> cases t <;> decide

theorem pieceToFenChar_ne_space (p : Piece) : pieceToFenChar p ≠ ' ' := by
  rcases p with ⟨c, t⟩
  cases c <;> cases t <;> decide

theorem pieceToFenChar_ne_slash (p : Piece) : pieceToFenChar p ≠ '/' := by
  rcases p with ⟨c, t⟩
  cases c <;> cases t <;> decide

theorem charToPiece_pieceToFenChar (p : Piece) :
    charToPiece (pieceToFenChar p) = some p := by
  rcases p with ⟨c, t⟩
  cases c <;> cases t <;> decide

theorem natToChars_digits (n : Nat) :
    ∀ ch ∈ natToChars n, ch.isDigit = true := by
  induction n using Nat.strong_induction_on with
  | _ n ih =>
    unfold natToChars
    split
    · next h =>
      intro ch hch
      rw [List.mem_singleton] at hch
      subst hch
      exact digitChar_isDigit n (by omega)
    · next h =>
      intro ch hch
      rw [List.mem_append] at hch
      rcases hch with hch | hch
      · exact ih (n / 10) (Nat.div_lt_self (by omega) (by norm_num)) ch hch
      · rw [List.mem_singleton] at hch
        subst hch
        exact digitChar_isDigit _ (by omega)

theorem natToChars_ne_nil (n : Nat) : natToChars n ≠ [] := by
  unfold natToChars
  split
  · simp
  · simp

theorem parseNatDigitsAux_append (a b : List Char) (acc : Nat) :
    parseNatDigitsAux (a ++ b) acc =
      match parseNatDigitsAux a acc with
      | some acc2 => parseNatDigitsAux b acc2
      | none => none := by
  induction a generalizing acc with
  | nil => rfl
  | cons x xs ih =>
    rw [List.cons_append]
    show (if x.isDigit = true then
      parseNatDigitsAux (xs ++ b) (acc * 10 + (x.toNat - 48)) else none) = _
    by_cases hd : x.isDigit = true
    · rw [if_pos hd]
      have hR : parseNatDigitsAux (x :: xs) acc =
          parseNatDigitsAux xs (acc * 10 + (x.toNat - 48)) := by
        show (if x.isDigit = true then _ else none) = _
        rw [if_pos hd]
      rw [hR]
      exact ih _
    · rw [if_neg hd]
      have hR : parseNatDigitsAux (x :: xs) acc = none := by
        show (if x.isDigit = true then _ else none) = _
        rw [if_neg hd]
      rw [hR]

theorem parseNatDigitsAux_natToChars (n acc : Nat) :
    parseNatDigitsAux (natToChars n) acc =
      some (acc * 10 ^ (natToChars n).length + n) := by
  induction n using Nat.strong_induction_on generalizing acc with
  | _ n ih =>
    unfold natToChars
    split
    · next h =>
      unfold parseNatDigitsAux
      rw [if_pos (digitChar_isDigit n (by omega))]
      unfold parseNatDigitsAux
      rw [digitChar_toNat' n (by omega)]
      simp
    · next h =>
      rw [parseNatDigitsAux_append]
      rw [ih (n / 10) (Nat.div_lt_self (by omega) (by norm_num)) acc]
      unfold parseNatDigitsAux
      rw [if_pos (digitChar_isDigit (n % 10) (by omega))]
      unfold parseNatDigitsAux
      rw [digitChar_toNat' (n % 10) (by omega)]
      rw [List.length_append, List.length_singleton, pow_succ]
      have : (acc * 10 ^ (natToChars (n / 10)).length + n / 10) * 10 + n % 10 =
          acc * (10 ^ (natToChars (n / 10)).length * 10) + n := by
        have hn : n / 10 * 10 + n % 10 = n := Nat.div_add_mod n 10 ▸ by ring_nf; omega
        ring_nf
        omega
      rw [this]

theorem parseNatDigits_natToChars (n : Nat) :
    parseNatDigits (natToChars n) = some n := by
  unfold parseNatDigits
  rcases hc : natToChars n with _ | ⟨x, xs⟩
  · exact absurd hc (natToChars_ne_nil n)
  · show parseNatDigitsAux (x :: xs) 0 = some n
    rw [← hc, parseNatDigitsAux_natToChars n 0]
    simp

end Chess

namespace Chess

theorem splitWSAux_chunk (a : List Char) (rest acc : List Char)
    (hs : ∀ ch ∈ a, ch ≠ ' ') (hne : acc.reverse ++ a ≠ []) :
    splitWSAux (a ++ ' ' :: rest) acc =
      (acc.reverse ++ a) :: splitWSAux rest [] := by
  induction a generalizing acc with
  | nil =>
    simp only [List.append_nil] at hne
    simp only [List.nil_append, splitWSAux, if_pos rfl]
    have hae : acc.isEmpty = false := by
      cases acc
      · simp at hne
      · rfl
    rw [hae]
    simp
  | cons x xs ih =>
    have hx : ¬ x = ' ' := hs x (List.mem_cons_self _ _)
    simp only [List.cons_append, splitWSAux, if_neg hx]
    simp only [List.append_eq]
    rw [ih (x :: acc) (fun ch hch => hs ch (List.mem_cons_of_mem _ hch))
      (by simp)]
    simp

theorem splitWSAux_last (a acc : List Char)
    (hs : ∀ ch ∈ a, ch ≠ ' ') (hne : acc.reverse ++ a ≠ []) :
    splitWSAux a acc = [acc.reverse ++ a] := by
  induction a generalizing acc with
  | nil =>
    simp only [List.append_nil] at hne
    simp only [splitWSAux]
    have hae : acc.isEmpty = false := by
      cases acc
      · simp at hne
      · rfl
    rw [hae]
    simp
  | cons x xs ih =>
    have hx : ¬ x = ' ' := hs x (List.mem_cons_self _ _)
    simp only [splitWSAux, if_neg hx]
    rw [ih (x :: acc) (fun ch hch => hs ch (List.mem_cons_of_mem _ hch))
      (by simp)]
    simp

theorem splitSlash_chunk (a rest acc : List Char)
    (hs : ∀ ch ∈ a, ch ≠ '/') :
    splitSlash (a ++ '/' :: rest) acc =
      (acc.reverse ++ a) :: splitSlash rest [] := by
  induction a generalizing acc with
  | nil =>
    simp only [List.nil_append, splitSlash, if_pos rfl]
    simp
  | cons x xs ih =>
    have hx : ¬ x = '/' := hs x (List.mem_cons_self _ _)
    simp only [List.cons_append, splitSlash, if_neg hx]
    simp only [List.append_eq]
    rw [ih (x :: acc) (fun ch hch => hs ch (List.mem_cons_of_mem _ hch))]
    simp

theorem splitSlash_last (a acc : List Char) (hs : ∀ ch ∈ a, ch ≠ '/') :
    splitSlash a acc = [acc.reverse ++ a] := by
  induction a generalizing acc with
  | nil => simp [splitSlash]
  | cons x xs ih =>
    have hx : ¬ x = '/' := hs x (List.mem_cons_self _ _)
    simp only [splitSlash, if_neg hx]
    rw [ih (x :: acc) (fun ch hch => hs ch (List.mem_cons_of_mem _ hch))]
    simp

end Chess

namespace Chess

/-- Semantic effect of one parsed rank: the occupied cells are written at
    consecutive files, empty cells leave the board untouched. -/
def writeCells (b : Board) (r f : Int) : List (Option Piece) → Board
  | [] => b
  | none :: rest => writeCells b r (f + 1) rest
  | some p :: rest => writeCells (bset b (toIndex r f) (some p)) r (f + 1) rest

theorem writeCells_length (cells : List (Option Piece)) :
    ∀ (b : Board) (r f : Int), (writeCells b r f cells).length = b.length := by
  induction cells with
  | nil => intro b r f; rfl
  | cons c rest ih =>
    intro b r f
    cases c with
    | none => exact ih b r (f + 1)
    | some p => rw [writeCells, ih, bset_length]

theorem writeCells_outside (cells : List (Option Piece)) :
    ∀ (b : Board) (r f j : Int), (j < 8 * r + f ∨ 8 * r + f + cells.length ≤ j) →
      0 ≤ f → bget (writeCells b r f cells) j = bget b j := by
  induction cells with
  | nil => intro b r f j _ _; rfl
  | cons c rest ih =>
    intro b r f j hj hf
    cases c with
    | none =>
      rw [writeCells]
      apply ih b r (f + 1) j _ (by omega)
      simp only [List.length_cons] at hj
      omega
    | some p =>
      rw [writeCells]
      rw [ih _ r (f + 1) j _ (by omega)]
      · apply bget_bset_ne
        unfold toIndex
        simp only [List.length_cons] at hj
        omega
      · simp only [List.length_cons] at hj
        omega

theorem writeCells_at (cells : List (Option Piece)) :
    ∀ (k : Nat) (b : Board) (r f : Int), b.length = 64 →
      0 ≤ r → r < 8 → 0 ≤ f → f + cells.length ≤ 8 → k < cells.length →
      bget (writeCells b r f cells) (toIndex r (f + k)) =
        match cells.getD k none with
        | some p => some p
        | none => bget b (toIndex r (f + k)) := by
  induction cells with
  | nil => intro k b r f _ _ _ _ _ hk; simp at hk
  | cons c rest ih =>
    intro k b r f hlen hr0 hr1 hf0 hfl hk
    simp only [List.length_cons] at hfl hk
    cases k with
    | zero =>
      cases c with
      | none =>
        rw [writeCells]
        simp only [List.getD_cons_zero, Nat.cast_zero, add_zero]
        exact writeCells_outside rest b r (f + 1) (toIndex r f)
          (Or.inl (by unfold toIndex; omega)) (by omega)
      | some p =>
        rw [writeCells]
        simp only [List.getD_cons_zero, Nat.cast_zero, add_zero]
        rw [writeCells_outside rest (bset b (toIndex r f) (some p)) r (f + 1)
          (toIndex r f) (Or.inl (by unfold toIndex; omega)) (by omega)]
        exact bget_bset_eq b (toIndex r f) (some p) hlen
          (by unfold toIndex; omega) (by unfold toIndex; omega)
    | succ k2 =>
      cases c with
      | none =>
        rw [writeCells]
        simp only [List.getD_cons_succ]
        have := ih k2 b r (f + 1) hlen hr0 hr1 (by omega) (by omega) (by omega)
        have harith : f + 1 + (k2 : Int) = f + ((k2 : Nat) + 1 : Nat) := by
          push_cast; ring
        rw [harith] at this
        exact this
      | some p =>
        rw [writeCells]
        simp only [List.getD_cons_succ]
        have := ih k2 (bset b (toIndex r f) (some p)) r (f + 1)
          (by rw [bset_length]; exact hlen) hr0 hr1 (by omega) (by omega)
          (by omega)
        have harith : f + 1 + (k2 : Int) = f + ((k2 : Nat) + 1 : Nat) := by
          push_cast; ring
        rw [harith] at this
        rw [this]
        cases hcell : rest.getD k2 none with
        | some q => rfl
        | none =>
          apply bget_bset_ne
          unfold toIndex
          have : ((k2 : Nat) + 1 : Nat) = (k2 : Int) + 1 := by push_cast; ring
          omega
    
end Chess

namespace Chess

theorem parseRankChars_cons_digit (r : Int) (n : Nat) (h9 : n ≤ 9)
    (rest : List Char) (b : Board) (f : Int) :
    parseRankChars r (digitChar n :: rest) b f = parseRankChars r rest b (f + n) := by
  rw [parseRankChars, if_pos (digitChar_isDigit n h9), digitChar_toNat n h9]

theorem parseRankChars_cons_piece (r : Int) (p : Piece)
    (rest : List Char) (b : Board) (f : Int) :
    parseRankChars r (pieceToFenChar p :: rest) b f =
      parseRankChars r rest (bset b (toIndex r f) (some p)) (f + 1) := by
  rw [parseRankChars, if_neg (by simp [pieceToFenChar_not_digit p]),
    charToPiece_pieceToFenChar p]

theorem parseRank_emitRank (r : Int) (cells : List (Option Piece)) :
    ∀ (cnt : Nat) (b : Board) (f : Int), cnt + cells.length ≤ 8 →
      parseRankChars r (emitRankAux cells cnt) b f =
        some (writeCells b r (f + cnt) cells) := by
  induction cells with
  | nil =>
    intro cnt b f hcnt
    unfold emitRankAux
    by_cases hc : cnt ≠ 0
    · rw [if_pos hc,
        parseRankChars_cons_digit r cnt (by simp at hcnt; omega)]
      rfl
    · rw [if_neg hc]
      push_neg at hc
      subst hc
      simp [parseRankChars, writeCells]
  | cons c rest ih =>
    intro cnt b f hcnt
    simp only [List.length_cons] at hcnt
    cases c with
    | none =>
      show parseRankChars r (emitRankAux rest (cnt + 1)) b f = _
      rw [ih (cnt + 1) b f (by omega)]
      rw [writeCells]
      congr 2
      push_cast
      omega
    | some p =>
      show parseRankChars r ((if cnt ≠ 0 then [digitChar cnt] else []) ++
        pieceToFenChar p :: emitRankAux rest 0) b f = _
      by_cases hc : cnt ≠ 0
      · rw [if_pos hc, List.singleton_append,
          parseRankChars_cons_digit r cnt (by omega),
          parseRankChars_cons_piece, ih 0 _ _ (by omega), writeCells]
        congr 2
        push_cast
        omega
      · rw [if_neg hc, List.nil_append]
        push_neg at hc
        subst hc
        rw [parseRankChars_cons_piece, ih 0 _ _ (by omega), writeCells]
        simp only [Nat.cast_zero, add_zero]

end Chess

namespace Chess

theorem emitRankAux_chars (cells : List (Option Piece)) :
    ∀ (cnt : Nat), cnt + cells.length ≤ 8 →
      ∀ ch ∈ emitRankAux cells cnt, ch ≠ ' ' ∧ ch ≠ '/' := by
  induction cells with
  | nil =>
    intro cnt h ch hch
    unfold emitRankAux at hch
    by_cases hc : cnt ≠ 0
    · rw [if_pos hc] at hch
      simp only [List.mem_singleton] at hch
      subst hch
      simp only [List.length_nil] at h
      exact ⟨digitChar_ne_space cnt (by omega), digitChar_ne_slash cnt (by omega)⟩
    · rw [if_neg hc] at hch
      cases hch
  | cons c rest ih =>
    intro cnt h ch hch
    simp only [List.length_cons] at h
    cases c with
    | none => exact ih (cnt + 1) (by omega) ch hch
    | some p =>
      have hch2 : ch ∈ (if cnt ≠ 0 then [digitChar cnt] else []) ++
          pieceToFenChar p :: emitRankAux rest 0 := hch
      rw [List.mem_append, List.mem_cons] at hch2
      rcases hch2 with hd | hp | hr
      · by_cases hc : cnt ≠ 0
        · rw [if_pos hc, List.mem_singleton] at hd
          subst hd
          exact ⟨digitChar_ne_space cnt (by omega), digitChar_ne_slash cnt (by omega)⟩
        · rw [if_neg hc] at hd
          cases hd
      · subst hp
        exact ⟨pieceToFenChar_ne_space p, pieceToFenChar_ne_slash p⟩
      · exact ih 0 (by omega) ch hr

theorem rankCells_length (b : Board) (r : Int) : (rankCells b r).length = 8 := by
  simp [rankCells]

theorem rankCells_getD (b : Board) (r : Int) (k : Nat) (hk : k < 8) :
    (rankCells b r).getD k none = bget b (toIndex r (k : Int)) := by
  unfold rankCells
  rw [List.getD_eq_getElem?_getD, List.getElem?_map, List.getElem?_range hk]
  rfl

/-- The list of emitted rank strings starting at rank `r`. -/
def emittedRanks (S : Board) : Int → Nat → List (List Char)
  | _, 0 => []
  | r, n + 1 => emitRankAux (rankCells S r) 0 :: emittedRanks S (r + 1) n

theorem splitSlash_emitPlacement (S : Board) :
    splitSlash (emitPlacement S) [] = emittedRanks S 0 8 := by
  unfold emitPlacement
  have hc : ∀ r : Int, ∀ ch ∈ emitRankAux (rankCells S r) 0, ch ≠ '/' :=
    fun r ch hch =>
      (emitRankAux_chars (rankCells S r) 0 (by rw [rankCells_length]) ch hch).2
  simp only [List.append_assoc, List.cons_append]
  rw [splitSlash_chunk _ _ _ (hc 0), splitSlash_chunk _ _ _ (hc 1),
    splitSlash_chunk _ _ _ (hc 2), splitSlash_chunk _ _ _ (hc 3),
    splitSlash_chunk _ _ _ (hc 4), splitSlash_chunk _ _ _ (hc 5),
    splitSlash_chunk _ _ _ (hc 6), splitSlash_last _ _ (hc 7)]
  simp only [List.reverse_nil, List.nil_append]
  rfl

end Chess

namespace Chess

theorem board_ext (b1 b2 : Board) (h1 : b1.length = 64) (h2 : b2.length = 64)
    (h : ∀ j : Int, bget b1 j = bget b2 j) : b1 = b2 := by
  apply List.ext_getElem?
  intro n
  by_cases hn : n < 64
  · have hj := h (n : Int)
    unfold bget at hj
    rw [if_pos ⟨Int.natCast_nonneg n, by exact_mod_cast hn⟩] at hj
    simp only [Int.toNat_natCast] at hj
    rw [List.getD_eq_getElem?_getD, List.getD_eq_getElem?_getD] at hj
    have e1 : b1[n]? = some b1[n] := List.getElem?_eq_getElem (by omega)
    have e2 : b2[n]? = some b2[n] := List.getElem?_eq_getElem (by omega)
    rw [e1, e2] at hj
    rw [if_pos ⟨Int.natCast_nonneg n, by exact_mod_cast hn⟩] at hj
    simp only [Option.getD_some] at hj
    rw [e1, e2, hj]
  · rw [List.getElem?_eq_none (by omega), List.getElem?_eq_none (by omega)]

theorem buildRanks_emitted (S : Board) :
    ∀ (count : Nat) (r : Int) (b : Board), b.length = 64 →
      0 ≤ r → r + count = 8 →
      (∀ j : Int, 8 * r ≤ j → bget b j = none) →
      ∃ bf, buildRanks count (emittedRanks S r count) r b = some bf ∧
        bf.length = 64 ∧
        ∀ j : Int, bget bf j = if 8 * r ≤ j then bget S j else bget b j := by
  intro count
  induction count with
  | zero =>
    intro r b hb hr0 hr8 habove
    refine ⟨b, rfl, hb, ?_⟩
    intro j
    by_cases hj : 8 * r ≤ j
    · rw [if_pos hj, habove j hj]
      rw [bget_out S j (by omega)]
    · rw [if_neg hj]
  | succ n ih =>
    intro r b hb hr0 hr8 habove
    have hr7 : r < 8 := by omega
    have hparse :
        parseRankChars r (emitRankAux (rankCells S r) 0) b 0 =
          some (writeCells b r 0 (rankCells S r)) := by
      rw [parseRank_emitRank r (rankCells S r) 0 b 0
        (by rw [rankCells_length])]
      simp
    have hnextlen : (writeCells b r 0 (rankCells S r)).length = 64 := by
      rw [writeCells_length]; exact hb
    have hmid : ∀ j : Int, 8 * r ≤ j → j < 8 * r + 8 →
        bget (writeCells b r 0 (rankCells S r)) j = bget S j := by
      intro j hj1 hj2
      have hk : ((j - 8 * r).toNat : Int) = j - 8 * r := by omega
      have hklt : (j - 8 * r).toNat < 8 := by omega
      have hat := writeCells_at (rankCells S r) (j - 8 * r).toNat b r 0 hb
        hr0 hr7 (by omega) (by rw [rankCells_length]; norm_num)
        (by rw [rankCells_length]; exact hklt)
      rw [rankCells_getD S r _ hklt] at hat
      have hjix : toIndex r (0 + ((j - 8 * r).toNat : Int)) = j := by
        unfold toIndex; omega
      have hjix2 : toIndex r (((j - 8 * r).toNat : Int)) = j := by
        unfold toIndex; omega
      rw [hjix, hjix2] at hat
      rcases hSj : bget S j with _ | p
      · rw [hSj] at hat
        simp only at hat
        rw [hat]
        exact habove j hj1
      · rw [hSj] at hat
        simp only at hat
        exact hat
    have houtside : ∀ j : Int, (j < 8 * r ∨ 8 * r + 8 ≤ j) →
        bget (writeCells b r 0 (rankCells S r)) j = bget b j := by
      intro j hj
      apply writeCells_outside (rankCells S r) b r 0 j _ le_rfl
      rw [rankCells_length]
      simp only [add_zero]
      push_cast
      omega
    have habove' : ∀ j : Int, 8 * (r + 1) ≤ j →
        bget (writeCells b r 0 (rankCells S r)) j = none := by
      intro j hj
      rw [houtside j (Or.inr (by omega))]
      exact habove j (by omega)
    obtain ⟨bf, hbf, hbflen, hbfget⟩ :=
      ih (r + 1) (writeCells b r 0 (rankCells S r)) hnextlen (by omega)
        (by omega) habove'
    refine ⟨bf, ?_, hbflen, ?_⟩
    · show (match parseRankChars r (emitRankAux (rankCells S r) 0) b 0 with
        | some b2 => buildRanks n (emittedRanks S (r + 1) n) (r + 1) b2
        | none => none) = some bf
      rw [hparse]
      exact hbf
    · intro j
      rw [hbfget j]
      by_cases hj1 : 8 * (r + 1) ≤ j
      · rw [if_pos hj1, if_pos (by omega : 8 * r ≤ j)]
      · rw [if_neg hj1]
        by_cases hj2 : 8 * r ≤ j
        · rw [if_pos hj2]
          exact hmid j hj2 (by omega)
        · rw [if_neg hj2]
          exact houtside j (Or.inl (by omega))

end Chess

namespace Chess

theorem isDigit_ne_space (ch : Char) (h : ch.isDigit = true) : ch ≠ ' ' := by
  intro heq
  rw [heq] at h
  exact absurd h (by decide)

theorem emitPlacement_ne_space (S : Board) :
    ∀ ch ∈ emitPlacement S, ch ≠ ' ' := by
  intro ch hch
  unfold emitPlacement at hch
  have hr : ∀ r : Int, ch ∈ emitRankAux (rankCells S r) 0 → ch ≠ ' ' :=
    fun r hm =>
      (emitRankAux_chars (rankCells S r) 0 (by rw [rankCells_length]) ch hm).1
  simp only [List.append_assoc, List.cons_append, List.mem_append,
    List.mem_cons] at hch
  rcases hch with h | h | h | h | h | h | h | h | h | h | h | h | h | h | h
  · exact hr 0 h
  · subst h; decide
  · exact hr 1 h
  · subst h; decide
  · exact hr 2 h
  · subst h; decide
  · exact hr 3 h
  · subst h; decide
  · exact hr 4 h
  · subst h; decide
  · exact hr 5 h
  · subst h; decide
  · exact hr 6 h
  · subst h; decide
  · exact hr 7 h

theorem emitPlacement_ne_nil (S : Board) : emitPlacement S ≠ [] := by
  unfold emitPlacement
  simp

theorem colorChar_ne_space (c : Color) : colorChar c ≠ ' ' := by
  cases c <;> decide

theorem intToChars_nonneg_digits (i : Int) (h : 0 ≤ i) :
    ∀ ch ∈ intToChars i, ch.isDigit = true := by
  unfold intToChars
  rw [if_neg (by omega)]
  exact natToChars_digits i.toNat

theorem intToChars_ne_nil (i : Int) : intToChars i ≠ [] := by
  unfold intToChars
  by_cases hi : i < 0
  · rw [if_pos hi]; simp
  · rw [if_neg hi]; exact natToChars_ne_nil i.toNat

theorem algebraic_ne_space (e : Int) :
    ∀ ch ∈ algebraic e, ch ≠ ' ' := by
  intro ch hch
  unfold algebraic at hch
  rcases List.mem_cons.mp hch with h | h
  · subst h
    have hmem : filesList.getD (fromIndex e).f.toNat 'a' ∈ filesList := by
      by_cases hlt : (fromIndex e).f.toNat < filesList.length
      · rw [List.getD_eq_getElem?_getD, List.getElem?_eq_getElem hlt]
        exact List.getElem_mem _
      · rw [List.getD_eq_getElem?_getD, List.getElem?_eq_none (by omega)]
        decide
    have hall : ∀ x ∈ filesList, x ≠ ' ' := by decide
    exact hall _ hmem
  · by_cases hr : (0 : Int) ≤ 8 - (fromIndex e).r
    · exact isDigit_ne_space ch (intToChars_nonneg_digits _ (by omega) ch h)
    · revert h
      unfold intToChars
      rw [if_pos (by omega)]
      intro h
      rcases List.mem_cons.mp h with h2 | h2
      · subst h2; decide
      · exact isDigit_ne_space ch (natToChars_digits _ ch h2)

end Chess

namespace Chess

theorem pawnMoves_double (st : State) (i toSq : Int) (p : Piece)
    (hp : bget st.board i = some p)
    (hwfep : ∀ e, st.ep = some e → 0 ≤ e ∧ e < 64)
    (h : toSq ∈ pawnMoves st i)
    (habs : ((fromIndex toSq).r - (fromIndex i).r).natAbs = 2) :
    (fromIndex i).r = (if p.c = Color.w then (6 : Int) else 1) ∧
      toSq = toIndex ((fromIndex i).r +
        2 * (if p.c = Color.w then (-1 : Int) else 1)) (fromIndex i).f := by
  obtain ⟨hi0, hi1⟩ := bget_some_range st.board i p hp
  obtain ⟨hdec, hr0, hr1, hf0, hf1⟩ := sq_decomp i hi0 hi1
  unfold pawnMoves at h
  rw [hp] at h
  by_cases hk : p.t = PieceKind.P
  · simp only [hk, ite_true] at h
    rw [List.mem_append, List.mem_append] at h
    rcases h with (h | h) | h
    · -- pushes: singles are one rank away; the double push gives the result
      by_cases hcw : p.c = Color.w
      all_goals
        first
          | simp only [if_pos hcw] at h ⊢
          | simp only [if_neg hcw] at h ⊢
      all_goals
        repeat' split at h
      all_goals
        simp only [onBoard, decide_eq_true_eq, List.mem_append,
          List.mem_singleton, List.not_mem_nil] at *
      all_goals
        try (exfalso
             subst h
             rw [toIndex_fromIndex _ _ (by omega) (by omega) hf0 hf1] at habs
             simp only at habs
             omega)
      all_goals
        rcases h with h | h
      all_goals
        try (exfalso
             subst h
             rw [toIndex_fromIndex _ _ (by omega) (by omega) hf0 hf1] at habs
             simp only at habs
             omega)
      all_goals
        subst h
      all_goals
        exact ⟨by omega, rfl⟩
    · -- captures move exactly one rank
      exfalso
      rw [List.mem_filterMap] at h
      obtain ⟨d, hdmem, hd⟩ := h
      repeat' split at hd
      all_goals
        first
          | exact Option.noConfusion hd
          | skip
      all_goals
        injection hd with hd
      all_goals
        subst hd
      all_goals
        simp only [onBoard, decide_eq_true_eq] at *
      all_goals
        rw [toIndex_fromIndex _ _ (by omega) (by omega) (by omega) (by omega)]
          at habs
      all_goals
        simp only at habs
      all_goals
        cases hcp : p.c <;> simp [hcp] at habs
    · -- en passant moves exactly one rank
      exfalso
      rcases hv : st.ep with _ | epv
      · rw [hv] at h
        simp at h
      · rw [hv] at h
        simp only at h
        obtain ⟨he0, he1⟩ := hwfep epv hv
        obtain ⟨hedec, her0, her1, hef0, hef1⟩ := sq_decomp epv he0 he1
        repeat' split at h
        all_goals simp only [List.not_mem_nil, List.mem_singleton] at h
        all_goals subst h
        all_goals
          rename_i hcond _
          obtain ⟨hrr, _⟩ := hcond
          rw [hrr] at habs
          cases hcp : p.c <;> simp [hcp] at habs
  · simp [hk] at h

end Chess

namespace Chess

/-- Invariants of every state the engine can reach: full board vector,
    castling letters among `KQkq`, en-passant square strictly inside the
    board, nonnegative halfmove clock, positive fullmove number. -/
structure WFState (s : State) : Prop where
  lenb : s.board.length = 64
  castle : ∀ ch ∈ s.castleRight, ch ∈ castleOrder
  epb : ∀ e, s.ep = some e → 1 ≤ e ∧ e < 64
  hmb : 0 ≤ s.halfmove
  fmb : 1 ≤ s.fullmove

theorem removeCastleRight_board (s : State) (codes : List Char) :
    (removeCastleRight s codes).board = s.board := rfl

theorem removeCastleRight_ep (s : State) (codes : List Char) :
    (removeCastleRight s codes).ep = s.ep := rfl

theorem removeCastleRight_turn (s : State) (codes : List Char) :
    (removeCastleRight s codes).turn = s.turn := rfl

theorem removeCastleRight_halfmove (s : State) (codes : List Char) :
    (removeCastleRight s codes).halfmove = s.halfmove := rfl

theorem removeCastleRight_fullmove (s : State) (codes : List Char) :
    (removeCastleRight s codes).fullmove = s.fullmove := rfl

theorem removeCastleRight_castleRight (s : State) (codes : List Char) :
    (removeCastleRight s codes).castleRight =
      castleOrder.filter
        (fun x => (s.castleRight.filter (fun c => ! codes.contains c)).contains x) :=
  rfl

/-- Castling-letter soundness, stated as a predicate so it can be pushed
    through the branch structure of `applyMovePure`. -/
def CP (l : List Char) : Prop := ∀ ch ∈ l, ch ∈ castleOrder

theorem CP_filter (q : Char → Bool) : CP (castleOrder.filter q) := by
  intro ch hch
  exact (List.mem_filter.mp hch).1

theorem applyMovePure_board_length (s : State) (f t : Int) :
    (applyMovePure s f t).board.length = s.board.length := by
  unfold applyMovePure
  split
  · rfl
  · simp only [removeCastleRight_board, apply_ite State.board,
      apply_ite List.length, bset_length, ite_self]
    split <;>
      simp only [removeCastleRight_board, apply_ite State.board,
        apply_ite List.length, bset_length, ite_self]

end Chess

namespace Chess

theorem applyMovePure_halfmove (s : State) (f t : Int) (h : 0 ≤ s.halfmove) :
    0 ≤ (applyMovePure s f t).halfmove := by
  unfold applyMovePure
  split
  · exact h
  · simp only [removeCastleRight_halfmove, apply_ite State.halfmove, ite_self]
    split <;>
      simp only [removeCastleRight_halfmove, apply_ite State.halfmove,
        ite_self] <;>
      (repeat' split) <;>
      omega

theorem fullmove_ite_step (c : Prop) [h : Decidable c] (b : Board)
    (tn : Color) (cr : List Char) (e : Option Int) (hm fm : Int) :
    State.fullmove (ite c (State.mk b tn cr e hm (fm + 1))
        (State.mk b tn cr e hm fm)) =
      fm + ite c 1 0 := by
  split <;> simp

theorem one_le_add_ite (c : Prop) [h : Decidable c] (x : Int) (hx : 1 ≤ x) :
    1 ≤ x + ite c 1 0 := by split <;> omega

theorem applyMovePure_fullmove (s : State) (f t : Int) (h : 1 ≤ s.fullmove) :
    1 ≤ (applyMovePure s f t).fullmove := by
  unfold applyMovePure
  split
  · exact h
  · simp only [fullmove_ite_step]
    apply one_le_add_ite
    split <;>
      simp only [removeCastleRight_fullmove, apply_ite State.fullmove,
        ite_self] <;>
      omega


theorem applyMovePure_castle (s : State) (f t : Int)
    (h : ∀ ch ∈ s.castleRight, ch ∈ castleOrder) :
    ∀ ch ∈ (applyMovePure s f t).castleRight, ch ∈ castleOrder := by
  have hcp : CP s.castleRight := h
  show CP (applyMovePure s f t).castleRight
  unfold applyMovePure
  split
  · exact hcp
  · simp only [removeCastleRight_castleRight, apply_ite State.castleRight,
      apply_ite CP, CP_filter, hcp, ite_self]
    split <;>
      simp only [removeCastleRight_castleRight, apply_ite State.castleRight,
        apply_ite CP, CP_filter, hcp, ite_self]

end Chess

namespace Chess

theorem applyMovePure_ep (s : State) (fromSq toSq : Int)
    (hwf : ∀ e, s.ep = some e → 1 ≤ e ∧ e < 64)
    (hmem : (fromSq, toSq) ∈ allLegalMoves s s.turn) :
    ∀ e, (applyMovePure s fromSq toSq).ep = some e → 1 ≤ e ∧ e < 64 := by
  obtain ⟨p, hp, hpc, hgen, _⟩ := allLegalMoves_mem s s.turn fromSq toSq hmem
  intro e he
  unfold applyMovePure at he
  rw [hp] at he
  simp only [removeCastleRight_ep, apply_ite State.ep, ite_self] at he
  split at he <;>
    simp only [removeCastleRight_ep, apply_ite State.ep, ite_self] at he
  all_goals
    split at he
  all_goals
    try exact Option.noConfusion he
  all_goals
    rename_i hcond
  all_goals
    rw [Option.some.injEq] at he
  all_goals
    have hgenp : toSq ∈ pawnMoves s fromSq := by
      unfold generateMoves at hgen
      rw [hp] at hgen
      simp only at hgen
      rw [hcond.1] at hgen
      exact hgen
  all_goals
    obtain ⟨hr6, hts⟩ := pawnMoves_double s fromSq toSq p hp
      (fun ev hev => by
        obtain ⟨a, b⟩ := hwf ev hev
        exact ⟨by omega, b⟩)
      hgenp hcond.2
  all_goals
    obtain ⟨hf0, hf1⟩ := bget_some_range s.board fromSq p hp
  all_goals
    obtain ⟨hd0, hfr0, hfr1, hff0, hff1⟩ := sq_decomp fromSq hf0 hf1
  all_goals
    by_cases hcw : p.c = Color.w
  all_goals
    first
      | (rw [if_pos hcw] at hr6
         rw [if_pos hcw] at hts)
      | (rw [if_neg hcw] at hr6
         rw [if_neg hcw] at hts)
  all_goals
    rw [hts, toIndex_fromIndex _ _ (by omega) (by omega) hff0 hff1] at he
  all_goals
    simp only at he
  all_goals
    rw [hr6] at he
  all_goals
    unfold toIndex at he
  all_goals
    norm_num at he
  all_goals
    omega

end Chess

namespace Chess

theorem WFState_initial : WFState initialState := by
  refine ⟨by decide, by decide, ?_, by decide, by decide⟩
  intro e he
  exact Option.noConfusion he

theorem WFState_apply (s : State) (f t : Int) (hwf : WFState s)
    (hmem : (f, t) ∈ allLegalMoves s s.turn) :
    WFState (applyMovePure s f t) := by
  refine ⟨?_, ?_, ?_, ?_, ?_⟩
  · rw [applyMovePure_board_length]; exact hwf.lenb
  · exact applyMovePure_castle s f t hwf.castle
  · exact applyMovePure_ep s f t hwf.epb hmem
  · exact applyMovePure_halfmove s f t hwf.hmb
  · exact applyMovePure_fullmove s f t hwf.fmb

/-- Positions produced by the initial board and a sequence of legal moves
    (the loop in `main.js`: each accepted move passes the legality check and
    is applied with the `applyMovePure` semantics). -/
inductive Reachable : State → Prop where
  | init : Reachable initialState
  | step (s : State) (f t : Int) (h : Reachable s)
      (hm : (f, t) ∈ allLegalMoves s s.turn) :
      Reachable (applyMovePure s f t)

theorem Reachable.wf (s : State) (h : Reachable s) : WFState s := by
  induction h with
  | init => exact WFState_initial
  | step s f t h hm ih => exact WFState_apply s f t ih hm

theorem splitWSAux_single (x : Char) (rest : List Char) (hx : x ≠ ' ') :
    splitWSAux (x :: ' ' :: rest) [] = [x] :: splitWSAux rest [] := by
  have h := splitWSAux_chunk [x] rest []
    (by intro ch hch; rw [List.mem_singleton] at hch; subst hch; exact hx)
    (by simp)
  simpa using h

end Chess

namespace Chess

theorem splitWS_toFEN (s : State) (hwf : WFState s) :
    splitWS (toFEN s) =
      [emitPlacement s.board, [colorChar s.turn],
       (if s.castleRight = [] then ['-'] else s.castleRight),
       (match s.ep with
        | some e => if e = 0 then ['-'] else algebraic e
        | none => ['-']),
       intToChars s.halfmove, intToChars s.fullmove] := by
  have hcast : ∀ ch ∈ (if s.castleRight = [] then ['-'] else s.castleRight),
      ch ≠ ' ' := by
    split
    · intro ch hch
      rw [List.mem_singleton] at hch
      subst hch
      decide
    · intro ch hch
      have hall : ∀ x ∈ castleOrder, x ≠ ' ' := by decide
      exact hall ch (hwf.castle ch hch)
  have hcastne : (if s.castleRight = [] then ['-'] else s.castleRight) ≠ [] := by
    split
    · simp
    · assumption
  have hepch : ∀ ch ∈ (match s.ep with
      | some e => if e = 0 then ['-'] else algebraic e
      | none => ['-']), ch ≠ ' ' := by
    rcases s.ep with _ | e
    · intro ch hch
      rw [List.mem_singleton] at hch
      subst hch
      decide
    · simp only
      split
      · intro ch hch
        rw [List.mem_singleton] at hch
        subst hch
        decide
      · exact algebraic_ne_space e
  have hepne : (match s.ep with
      | some e => if e = 0 then ['-'] else algebraic e
      | none => ['-']) ≠ [] := by
    rcases s.ep with _ | e
    · simp
    · simp only
      split
      · simp
      · unfold algebraic
        simp
  have hhm : ∀ ch ∈ intToChars s.halfmove, ch ≠ ' ' :=
    fun ch hch => isDigit_ne_space ch (intToChars_nonneg_digits _ hwf.hmb ch hch)
  have hfm : ∀ ch ∈ intToChars s.fullmove, ch ≠ ' ' :=
    fun ch hch => isDigit_ne_space ch
      (intToChars_nonneg_digits _ (by have := hwf.fmb; omega) ch hch)
  show splitWSAux (toFEN s) [] = _
  unfold toFEN
  simp only [List.append_assoc, List.cons_append]
  rw [splitWSAux_chunk (emitPlacement s.board) _ []
    (emitPlacement_ne_space s.board)
    (by simpa using emitPlacement_ne_nil s.board)]
  rw [splitWSAux_single (colorChar s.turn) _ (colorChar_ne_space s.turn)]
  rw [splitWSAux_chunk _ _ [] hcast (by simpa using hcastne)]
  rw [splitWSAux_chunk _ _ [] hepch (by simpa using hepne)]
  rw [splitWSAux_chunk _ _ [] hhm
    (by simpa using intToChars_ne_nil s.halfmove)]
  rw [splitWSAux_last _ [] hfm (by simpa using intToChars_ne_nil s.fullmove)]
  simp

end Chess

namespace Chess

theorem intToChars_nonneg (i : Int) (h : 0 ≤ i) :
    intToChars i = natToChars i.toNat := by
  unfold intToChars
  rw [if_neg (by omega)]

theorem filesList_indexOf_getD (k : Nat) (hk : k < 8) :
    filesList.indexOf (filesList.getD k 'a') = k := by
  interval_cases k <;> decide

theorem getD_filesList_mem (k : Nat) (hk : k < 8) :
    filesList.getD k 'a' ∈ filesList := by
  interval_cases k <;> decide

theorem algebraicToIndex_algebraic (e : Int) (h0 : 0 ≤ e) (h1 : e < 64) :
    algebraicToIndex (algebraic e) = some e := by
  obtain ⟨hdec, hr0, hr1, hf0, hf1⟩ := sq_decomp e h0 h1
  have hfnat : (fromIndex e).f.toNat < 8 := by omega
  unfold algebraic
  rw [intToChars_nonneg _ (by omega)]
  unfold algebraicToIndex
  simp only
  rw [parseNatDigits_natToChars]
  simp only
  rw [if_pos (getD_filesList_mem _ hfnat)]
  rw [filesList_indexOf_getD _ hfnat]
  congr 1
  unfold toIndex
  omega

theorem bget_blank (j : Int) :
    bget ((List.range 64).map (fun _ => (none : Option Piece))) j = none := by
  unfold bget
  split
  · next h =>
    rw [List.getD_eq_getElem?_getD, List.getElem?_map]
    rcases hj : (List.range 64)[j.toNat]? with _ | v <;> simp
  · rfl

theorem turn_roundtrip (c : Color) :
    (if [colorChar c] = ['w'] then some Color.w
     else if [colorChar c] = ['b'] then some Color.b else none) = some c := by
  cases c <;> decide

theorem algebraic_ne_dash (e : Int) : algebraic e ≠ ['-'] := by
  unfold algebraic
  intro h
  rw [List.cons.injEq] at h
  have hm := getD_filesList_mem (fromIndex e).f.toNat
  by_cases hk : (fromIndex e).f.toNat < 8
  · have := hm hk
    rw [h.1] at this
    revert this
    decide
  · have : filesList.getD (fromIndex e).f.toNat 'a' = 'a' := by
      rw [List.getD_eq_getElem?_getD, List.getElem?_eq_none (by
        unfold filesList
        simp only [List.length_cons, List.length_nil]
        omega)]
      rfl
    rw [this] at h
    exact absurd h.1 (by decide)

theorem loadFEN_toFEN (s : State) (hwf : WFState s) (st : State) :
    loadFEN st (toFEN s) = some s := by
  unfold loadFEN
  rw [splitWS_toFEN s hwf]
  simp only
  rw [splitSlash_emitPlacement s.board]
  obtain ⟨bf, hbf, hbflen, hbfget⟩ :=
    buildRanks_emitted s.board 8 0 ((List.range 64).map (fun _ => none))
      (by simp) le_rfl (by norm_num) (fun j _ => bget_blank j)
  have hbfeq : bf = s.board := by
    apply board_ext bf s.board hbflen hwf.lenb
    intro j
    rw [hbfget j]
    split
    · rfl
    · next hj =>
      rw [bget_blank, bget_out s.board j (by omega)]
  rw [hbf, hbfeq]
  simp only
  rw [turn_roundtrip s.turn]
  simp only
  -- castling rights
  have hcr : (if (if s.castleRight = [] then ['-'] else s.castleRight) = ['-']
      then ([] : List Char)
      else (if s.castleRight = [] then ['-'] else s.castleRight)) =
      s.castleRight := by
    by_cases hc : s.castleRight = []
    · rw [if_pos hc, if_pos rfl, hc]
    · have hcd : s.castleRight ≠ ['-'] := by
        intro hcontra
        have := hwf.castle '-' (by rw [hcontra]; exact List.mem_singleton_self _)
        revert this
        decide
      rw [if_neg hc, if_neg hcd]
  rw [hcr]
  -- en passant
  have hep : (if (match s.ep with
      | some e => if e = 0 then ['-'] else algebraic e
      | none => ['-']) = ['-'] then some (none : Option Int)
      else match algebraicToIndex (match s.ep with
        | some e => if e = 0 then ['-'] else algebraic e
        | none => ['-']) with
        | some i => some (some i)
        | none => none) = some s.ep := by
    rcases hv : s.ep with _ | e
    · simp
    · obtain ⟨he1, he2⟩ := hwf.epb e hv
      simp only
      rw [if_neg (show ¬ (e = 0) from by omega)]
      rw [if_neg (algebraic_ne_dash e)]
      rw [algebraicToIndex_algebraic e (by omega) he2]
  rw [hep]
  simp only
  -- halfmove and fullmove
  rw [intToChars_nonneg s.halfmove hwf.hmb,
    intToChars_nonneg s.fullmove (by have := hwf.fmb; omega),
    parseNatDigits_natToChars, parseNatDigits_natToChars]
  simp only [Option.getD_some]
  rw [if_neg (by have := hwf.fmb; omega)]
  rw [Int.toNat_of_nonneg hwf.hmb, Int.toNat_of_nonneg (by have := hwf.fmb; omega)]

end Chess

namespace Chess

/-- C8: FEN round-trip — for every position reachable from the standard
    initial setup by legal moves, `loadFEN state' (toFEN state)` rebuilds
    exactly the same state: board contents, side to move, castling rights,
    en-passant square, halfmove clock and fullmove number. -/
theorem fen_round_trip (s st : State) (h : Reachable s) :
    loadFEN st (toFEN s) = some s :=
  loadFEN_toFEN s (Reachable.wf s h) st

/-- Witness for C8: the initial position and the position after the double
    push e2-e4 both survive the round trip. -/
theorem fen_round_trip_witness :
    Reachable (applyMovePure initialState 52 36) ∧
      loadFEN initialState (toFEN (applyMovePure initialState 52 36)) =
        some (applyMovePure initialState 52 36) := by
  have hr : Reachable (applyMovePure initialState 52 36) :=
    Reachable.step initialState 52 36 Reachable.init (by decide)
  exact ⟨hr, fen_round_trip (applyMovePure initialState 52 36) initialState hr⟩

end Chess

namespace Chess

/-! ### Zobrist hashing (`zobrist.js`) -/

def COLOR_IDX (c : Color) : Nat :=
  match c with
  | Color.w => 0
  | Color.b => 1

def TYPE_IDX (t : PieceKind) : Nat :=
  match t with
  | PieceKind.P => 0
  | PieceKind.N => 1
  | PieceKind.B => 2
  | PieceKind.R => 3
  | PieceKind.Q => 4
  | PieceKind.K => 5

/-- The `ZOB` tables built in `initZobrist`, abstracted over the random
    values they were filled with. -/
structure Zob where
  pieces : Nat → Nat → Int → Nat
  castle : Nat → Nat
  epFile : Int → Nat
  sideToMove : Nat

/-- `epFileIndexEffective(state)`: the en-passant file, but only when a pawn
    of the side to move sits one rank behind the ep square on an adjacent
    file; `-1` otherwise. -/
def epFileIndexEffective (st : State) : Int :=
  match st.ep with
  | none => -1
  | some ep =>
    let rf := fromIndex ep
    let dr : Int := if st.turn = Color.w then 1 else -1
    let check : Int → Bool := fun nf =>
      if nf < 0 ∨ 7 < nf then false
      else
        match bget st.board (toIndex (rf.r + dr) nf) with
        | some p => decide (p.c = st.turn ∧ p.t = PieceKind.P)
        | none => false
    if check (rf.f - 1) then rf.f
    else if check (rf.f + 1) then rf.f
    else -1

/-- `computeKey(state)` over abstract tables. -/
def computeKey (z : Zob) (st : State) : Nat :=
  let h0 := (List.range 64).foldl (fun h i =>
    match bget st.board (Int.ofNat i) with
    | some p => h ^^^ z.pieces (COLOR_IDX p.c) (TYPE_IDX p.t) (Int.ofNat i)
    | none => h) 0
  let h1 := if st.turn = Color.b then h0 ^^^ z.sideToMove else h0
  let h2 := if st.castleRight.contains 'K' then h1 ^^^ z.castle 0 else h1
  let h3 := if st.castleRight.contains 'Q' then h2 ^^^ z.castle 1 else h2
  let h4 := if st.castleRight.contains 'k' then h3 ^^^ z.castle 2 else h3
  let h5 := if st.castleRight.contains 'q' then h4 ^^^ z.castle 3 else h4
  let ef := epFileIndexEffective st
  let h6 := if 0 ≤ ef then h5 ^^^ z.epFile ef else h5
  h6 &&& (2 ^ 64 - 1)

/-- "No pawn of the side to move can consume the en-passant square": the
    board-level condition scanned by `epFileIndexEffective`. -/
def NoEpConsumer (st : State) : Prop :=
  ∀ e, st.ep = some e →
    ∀ nf : Int,
      (nf = (fromIndex e).f - 1 ∨ nf = (fromIndex e).f + 1) →
      0 ≤ nf → nf ≤ 7 →
      ∀ p, bget st.board
          (toIndex ((fromIndex e).r + (if st.turn = Color.w then 1 else -1)) nf) =
            some p →
        ¬(p.c = st.turn ∧ p.t = PieceKind.P)

theorem epFIE_of_noConsumer (st : State) (h : NoEpConsumer st) :
    epFileIndexEffective st = -1 := by
  unfold epFileIndexEffective
  rcases hv : st.ep with _ | e
  · rfl
  · simp only
    have hc : ∀ nf : Int,
        (nf = (fromIndex e).f - 1 ∨ nf = (fromIndex e).f + 1) →
        (if nf < 0 ∨ 7 < nf then false
         else
           match bget st.board
               (toIndex ((fromIndex e).r +
                 (if st.turn = Color.w then 1 else -1)) nf) with
           | some p => decide (p.c = st.turn ∧ p.t = PieceKind.P)
           | none => false) = false := by
      intro nf hnf
      by_cases hb : nf < 0 ∨ 7 < nf
      · rw [if_pos hb]
      · rw [if_neg hb]
        push_neg at hb
        rcases hp : bget st.board
            (toIndex ((fromIndex e).r +
              (if st.turn = Color.w then 1 else -1)) nf) with _ | p
        · rfl
        · simp only [decide_eq_false_iff_not]
          exact h e hv nf hnf hb.1 hb.2 p hp
    simp only [hc ((fromIndex e).f - 1) (Or.inl rfl),
      hc ((fromIndex e).f + 1) (Or.inr rfl), Bool.false_eq_true, if_false]

end Chess

namespace Chess

/-- C7: Zobrist en-passant neutrality — `computeKey` hashes the en-passant
    file only when a pawn of the side to move can actually execute the
    capture, so two positions identical except for an unusable en-passant
    square hash to the same key. -/
theorem computeKey_ep_neutral (z : Zob) (s1 s2 : State)
    (hb : s1.board = s2.board) (ht : s1.turn = s2.turn)
    (hc : s1.castleRight = s2.castleRight)
    (h1 : NoEpConsumer s1) (h2 : NoEpConsumer s2) :
    computeKey z s1 = computeKey z s2 := by
  simp only [computeKey, epFIE_of_noConsumer s1 h1, epFIE_of_noConsumer s2 h2,
    hb, ht, hc]

/-- Concrete Zobrist tables for the C7 witness, with a nonzero value for
    every en-passant file so the theorem is not vacuous there. -/
def zTest : Zob :=
  { pieces := fun a b i => a + 2 * b + 3 * i.toNat
    castle := fun k => k + 11
    epFile := fun f => f.toNat + 101
    sideToMove := 7 }

/-- Witness for C7: after White's double push the square a6 would be the
    en-passant target; with no black pawn on an adjacent file the key equals
    the key of the same position without the en-passant marker. -/
theorem computeKey_ep_neutral_witness :
    ({ initialState with ep := some 16 } : State).board = initialState.board ∧
      computeKey zTest { initialState with ep := some 16 } =
        computeKey zTest initialState := by
  refine ⟨rfl, computeKey_ep_neutral zTest _ _ rfl rfl rfl ?_ ?_⟩
  · intro e he nf hnf
    have he' : (16 : Int) = e := Option.some.inj he
    subst he'
    rcases hnf with h | h
    · subst h
      intro h0
      exact absurd h0 (by decide)
    · subst h
      intro _ _ p hp
      rw [show bget ({ initialState with ep := some 16 } : State).board
          (toIndex ((fromIndex 16).r +
            (if ({ initialState with ep := some 16 } : State).turn = Color.w
              then 1 else -1)) ((fromIndex 16).f + 1)) = none from by decide]
        at hp
      exact Option.noConfusion hp
  · intro e he nf hnf h0 h7 p hp
    exact Option.noConfusion he

end Chess

namespace Chess

/-! ### JavaScript numbers in the search: finite values and the two
    infinities (`-Infinity`/`Infinity`) that flow through the windows. -/

inductive JNum where
  | ninf
  | fin (v : Int)
  | pinf
deriving DecidableEq, Repr

def JNum.le : JNum → JNum → Bool
  | JNum.ninf, _ => true
  | JNum.fin _, JNum.ninf => false
  | JNum.fin a, JNum.fin b => decide (a ≤ b)
  | JNum.fin _, JNum.pinf => true
  | JNum.pinf, JNum.pinf => true
  | JNum.pinf, _ => false

def JNum.lt (x y : JNum) : Bool := ! JNum.le y x

/-- `x + d` for finite `d`: the infinities absorb. -/
def JNum.addInt : JNum → Int → JNum
  | JNum.ninf, _ => JNum.ninf
  | JNum.fin v, d => JNum.fin (v + d)
  | JNum.pinf, _ => JNum.pinf

def JNum.maxJ (x y : JNum) : JNum := if JNum.le x y then y else x

def JNum.minJ (x y : JNum) : JNum := if JNum.le x y then x else y

def JNum.isFinite : JNum → Bool
  | JNum.fin _ => true
  | _ => false

/-- `Math.abs(x) > c` for a nonnegative bound. -/
def JNum.absGT : JNum → Int → Bool
  | JNum.ninf, _ => true
  | JNum.pinf, _ => true
  | JNum.fin v, c => decide (c < v ∨ v < -c)

/-- `Number.isFinite(v) ? Math.trunc(v) : fallback` (values are integral). -/
def JNum.finiteOr : JNum → Int → Int
  | JNum.fin v, _ => v
  | _, fb => fb

end Chess

namespace Chess

/-! ### Transposition table (`tt.js`) -/

/-- JS `| 0`: truncation to a signed 32-bit integer. -/
def toInt32 (x : Int) : Int := (x + 2 ^ 31) % 2 ^ 32 - 2 ^ 31

structure TTEntry where
  key : Nat
  depth : Int
  flag : Nat
  score : JNum
  bestMove : Option (Int × Int)
deriving DecidableEq, Repr

/-- `_indexFor(keyBig)`. -/
def indexFor (mask key : Nat) : Nat :=
  (key ^^^ (key >>> 32) ^^^ (key >>> 53)) &&& mask

/-- What `ttProbe` can hand back: a miss, a bare ordering hint, or the full
    entry with valid bounds. -/
inductive ProbeResult where
  | miss
  | hint (bestMove : Option (Int × Int))
  | full (e : TTEntry)
deriving DecidableEq, Repr

/-- `ttProbe(keyBig, reqDepth)` over the table contents. -/
def ttProbe (table : Nat → Option TTEntry) (mask : Nat) (key : Nat)
    (reqDepth : Int) : ProbeResult :=
  match table (indexFor mask key) with
  | none => ProbeResult.miss
  | some e =>
    if e.key ≠ key then ProbeResult.miss
    else if toInt32 reqDepth ≤ toInt32 e.depth then ProbeResult.full e
    else ProbeResult.hint e.bestMove

/-- `ttStore(keyBig, depth, flag, score, bestMove)`: depth-preferred
    replacement. -/
def ttStore (table : Nat → Option TTEntry) (mask : Nat) (key : Nat)
    (depth : Int) (flag : Nat) (score : JNum) (bestMove : Option (Int × Int)) :
    Nat → Option TTEntry :=
  let i := indexFor mask key
  let shouldReplace :=
    match table i with
    | none => true
    | some e =>
      if e.key ≠ key then decide (toInt32 e.depth ≤ toInt32 depth)
      else true
  if shouldReplace then
    fun j => if j = i then
      some { key := key, depth := toInt32 depth, flag := flag, score := score,
             bestMove := bestMove }
      else table j
  else table

/-- C6: the probe contract — the full entry comes back iff the indexed slot
    holds this key with sufficient stored depth; a matching key with
    insufficient depth yields only the move hint; an empty or foreign slot
    yields nothing. -/
theorem ttProbe_contract (table : Nat → Option TTEntry) (mask key : Nat)
    (reqDepth : Int) :
    (∀ e, ttProbe table mask key reqDepth = ProbeResult.full e ↔
      (table (indexFor mask key) = some e ∧ e.key = key ∧
        toInt32 reqDepth ≤ toInt32 e.depth)) ∧
    (∀ bm, ttProbe table mask key reqDepth = ProbeResult.hint bm ↔
      (∃ e, table (indexFor mask key) = some e ∧ e.key = key ∧
        toInt32 e.depth < toInt32 reqDepth ∧ bm = e.bestMove)) ∧
    (ttProbe table mask key reqDepth = ProbeResult.miss ↔
      (table (indexFor mask key) = none ∨
        ∃ e, table (indexFor mask key) = some e ∧ e.key ≠ key)) := by
  unfold ttProbe
  rcases ht : table (indexFor mask key) with _ | e
  · refine ⟨?_, ?_, ?_⟩
    · intro e
      constructor
      · intro h
        exact ProbeResult.noConfusion h
      · intro ⟨h, _⟩
        exact Option.noConfusion h
    · intro bm
      constructor
      · intro h
        exact ProbeResult.noConfusion h
      · intro ⟨e, h, _⟩
        exact Option.noConfusion h
    · simp
  · simp only
    by_cases hk : e.key = key
    · rw [if_neg (by simpa using hk)]
      by_cases hd : toInt32 reqDepth ≤ toInt32 e.depth
      · rw [if_pos hd]
        refine ⟨?_, ?_, ?_⟩
        · intro e2
          constructor
          · intro h
            have he : e = e2 := by
              injection h
            subst he
            exact ⟨rfl, hk, hd⟩
          · intro ⟨h1, _, _⟩
            have : e = e2 := by
              injection h1
            subst this
            rfl
        · intro bm
          constructor
          · intro h
            exact ProbeResult.noConfusion h
          · intro ⟨e2, h1, _, hlt, _⟩
            have : e = e2 := by
              injection h1
            subst this
            omega
        · constructor
          · intro h
            exact ProbeResult.noConfusion h
          · intro h
            rcases h with h | ⟨e2, h1, hne⟩
            · exact Option.noConfusion h
            · have : e = e2 := by
                injection h1
              subst this
              exact absurd hk hne
      · rw [if_neg hd]
        refine ⟨?_, ?_, ?_⟩
        · intro e2
          constructor
          · intro h
            exact ProbeResult.noConfusion h
          · intro ⟨h1, _, hle⟩
            have : e = e2 := by
              injection h1
            subst this
            exact absurd hle hd
        · intro bm
          constructor
          · intro h
            have : e.bestMove = bm := by
              injection h
            exact ⟨e, rfl, hk, by omega, this.symm⟩
          · intro ⟨e2, h1, _, _, hbm⟩
            have : e = e2 := by
              injection h1
            subst this
            rw [hbm]
        · constructor
          · intro h
            exact ProbeResult.noConfusion h
          · intro h
            rcases h with h | ⟨e2, h1, hne⟩
            · exact Option.noConfusion h
            · have : e = e2 := by
                injection h1
              subst this
              exact absurd hk hne
    · rw [if_pos (by simpa using hk)]
      refine ⟨?_, ?_, ?_⟩
      · intro e2
        constructor
        · intro h
          exact ProbeResult.noConfusion h
        · intro ⟨h1, hke, _⟩
          have : e = e2 := by
            injection h1
          subst this
          exact absurd hke hk
      · intro bm
        constructor
        · intro h
          exact ProbeResult.noConfusion h
        · intro ⟨e2, h1, hke, _, _⟩
          have : e = e2 := by
            injection h1
          subst this
          exact absurd hke hk
      · constructor
        · intro _
          exact Or.inr ⟨e, rfl, hk⟩
        · intro _
          rfl

end Chess

namespace Chess

/-! ### Evaluation (`eval.js`) -/

def VAL (t : PieceKind) : Int :=
  match t with
  | PieceKind.P => 100
  | PieceKind.N => 320
  | PieceKind.B => 330
  | PieceKind.R => 500
  | PieceKind.Q => 900
  | PieceKind.K => 0

def PST_P : List Int :=
  [ 0,  0,  0,  0,  0,  0,  0,  0,
   50, 50, 50, 50, 50, 50, 50, 50,
   10, 10, 20, 30, 30, 20, 10, 10,
    5,  5, 10, 25, 25, 10,  5,  5,
    0,  0,  0, 20, 20,  0,  0,  0,
    5, -5,-10,  0,  0,-10, -5,  5,
    5, 10, 10,-20,-20, 10, 10,  5,
    0,  0,  0,  0,  0,  0,  0,  0]

def PST_N : List Int :=
  [-50,-40,-30,-30,-30,-30,-40,-50,
   -40,-20,  0,  0,  0,  0,-20,-40,
   -30,  0, 10, 15, 15, 10,  0,-30,
   -30,  5, 15, 20, 20, 15,  5,-30,
   -30,  0, 15, 20, 20, 15,  0,-30,
   -30,  5, 10, 15, 15, 10,  5,-30,
   -40,-20,  0,  5,  5,  0,-20,-40,
   -50,-40,-30,-30,-30,-30,-40,-50]

def PST_B : List Int :=
  [-20,-10,-10,-10,-10,-10,-10,-20,
   -10,  0,  0,  0,  0,  0,  0,-10,
   -10,  0,  5, 10, 10,  5,  0,-10,
   -10,  5,  5, 10, 10,  5,  5,-10,
   -10,  0, 10, 10, 10, 10,  0,-10,
   -10, 10, 10, 10, 10, 10, 10,-10,
   -10,  5,  0,  0,  0,  0,  5,-10,
   -20,-10,-10,-10,-10,-10,-10,-20]

def PST_R : List Int :=
  [ 0,  0,  0,  5,  5,  0,  0,  0,
   -5,  0,  0,  0,  0,  0,  0, -5,
   -5,  0,  0,  0,  0,  0,  0, -5,
   -5,  0,  0,  0,  0,  0,  0, -5,
   -5,  0,  0,  0,  0,  0,  0, -5,
   -5,  0,  0,  0,  0,  0,  0, -5,
    5, 10, 10, 10, 10, 10, 10,  5,
    0,  0,  0,  0,  0,  0,  0,  0]

def PST_Q : List Int :=
  [-20,-10,-10, -5, -5,-10,-10,-20,
   -10,  0,  0,  0,  0,  0,  0,-10,
   -10,  0,  5,  5,  5,  5,  0,-10,
    -5,  0,  5,  5,  5,  5,  0, -5,
     0,  0,  5,  5,  5,  5,  0, -5,
   -10,  5,  5,  5,  5,  5,  0,-10,
   -10,  0,  5,  0,  0,  0,  0,-10,
   -20,-10,-10, -5, -5,-10,-10,-20]

def PST_K : List Int :=
  [-30,-40,-40,-50,-50,-40,-40,-30,
   -30,-40,-40,-50,-50,-40,-40,-30,
   -30,-40,-40,-50,-50,-40,-40,-30,
   -30,-40,-40,-50,-50,-40,-40,-30,
   -20,-30,-30,-40,-40,-30,-30,-20,
   -10,-20,-20,-20,-20,-20,-20,-10,
    20, 20,  0,  0,  0,  0, 20, 20,
    20, 30, 10,  0,  0, 10, 30, 20]

def PST (t : PieceKind) : List Int :=
  match t with
  | PieceKind.P => PST_P
  | PieceKind.N => PST_N
  | PieceKind.B => PST_B
  | PieceKind.R => PST_R
  | PieceKind.Q => PST_Q
  | PieceKind.K => PST_K

def mirrorForBlack (sq : Int) : Int :=
  (7 - Int.fdiv sq 8) * 8 + Int.tmod sq 8

/-- `classicEval(state)`: material + piece-square tables + bishop pair +
    mobility + tempo, white point of view. -/
def classicEval (st : State) : Int :=
  let acc := (List.range 64).foldl
    (fun (acc : Int × Nat × Nat) i =>
      match bget st.board (Int.ofNat i) with
      | none => acc
      | some p =>
        let v := VAL p.t
        let idx := if p.c = Color.w then Int.ofNat i
                   else mirrorForBlack (Int.ofNat i)
        let pst := (PST p.t).getD idx.toNat 0
        let sv := v + pst
        let score := if p.c = Color.w then acc.1 + sv else acc.1 - sv
        let wB := if p.t = PieceKind.B ∧ p.c = Color.w then acc.2.1 + 1
                  else acc.2.1
        let bB := if p.t = PieceKind.B ∧ p.c = Color.b then acc.2.2 + 1
                  else acc.2.2
        (score, wB, bB))
    ((0 : Int), (0 : Nat), (0 : Nat))
  let score1 := if 2 ≤ acc.2.1 then acc.1 + 30 else acc.1
  let score2 := if 2 ≤ acc.2.2 then score1 - 30 else score1
  let wMob := (allLegalMoves st Color.w).length
  let bMob := (allLegalMoves st Color.b).length
  let score3 := score2 + 2 * ((wMob : Int) - (bMob : Int))
  score3 + (if st.turn = Color.w then 8 else -8)

def PIECE_INDEX (t : PieceKind) : Nat :=
  match t with
  | PieceKind.P => 0
  | PieceKind.N => 1
  | PieceKind.B => 2
  | PieceKind.R => 3
  | PieceKind.Q => 4
  | PieceKind.K => 5

/-- The 385 input features (`featuresFromState`): signed piece planes plus
    the tempo feature. -/
def featuresFromState (st : State) : List Rat :=
  (List.range 385).map (fun j =>
    if j = 384 then (if st.turn = Color.w then (1 : Rat) else -1)
    else
      match bget st.board (Int.ofNat (j % 64)) with
      | some p =>
        if PIECE_INDEX p.t = j / 64 then
          (if p.c = Color.w then (1 : Rat) else -1)
        else 0
      | none => 0)

def reluList (v : List Rat) : List Rat :=
  v.map (fun x => if x < 0 then 0 else x)

/-- `matvec(W, x, b)` with the exact-arithmetic reading of the float code. -/
def matvec (W : List (List Rat)) (x : List Rat) (b : Option (List Rat)) :
    List Rat :=
  (List.range W.length).map (fun r =>
    (List.range x.length).foldl
      (fun s c => s + ((W.getD r []).getD c 0) * x.getD c 0)
      (match b with
       | some bb => bb.getD r 0
       | none => 0))

structure MlpLayer where
  W : List (List Rat)
  b : Option (List Rat)

/-- The decoded JSON weight blob. -/
structure MlpBlob where
  layers : List MlpLayer
  scale_cp : Option Rat
  model_pov : Option String

structure EvalResult where
  evalFn : State → Rat
  kind : String
  model_pov : String

/-- `buildMlpWhitePOV(blob)`: throws (here `Except.error`) when the blob
    does not hold exactly two layers. -/
def buildMlpWhitePOV (blob : MlpBlob) : Except String EvalResult :=
  let layers := blob.layers
  if layers.length ≠ 2 then
    Except.error "Expected layers=[L0,L1] for 1-hidden MLP"
  else
    let L0 := layers.getD 0 { W := [], b := none }
    let L1 := layers.getD 1 { W := [], b := none }
    let scale : Rat :=
      match blob.scale_cp with
      | some c => if c = 0 then 1000 else c
      | none => 1000
    let pov : String :=
      (match blob.model_pov with
       | some s => if s = "" then "sidemove" else s
       | none => "sidemove").toLower
    let rawCP := fun (st : State) =>
      let x := featuresFromState st
      let h := reluList (matvec L0.W x L0.b)
      let y := matvec L1.W h L1.b
      (y.getD 0 0) * scale
    let evalFn := fun (st : State) =>
      if pov = "sidemove" then
        (if st.turn = Color.w then rawCP st else -(rawCP st))
      else rawCP st
    Except.ok { evalFn := evalFn, kind := "mlp", model_pov := pov }

/-- `getEval({mode})` with the outcome of the `fetch`/`res.json()` step made
    explicit: `Except.error ()` is a network or JSON failure caught by the
    `try`/`catch`. -/
def getEval (mode : String) (fetched : Except Unit MlpBlob) :
    Except String EvalResult :=
  if mode = "classic" then
    Except.ok { evalFn := fun st => (classicEval st : Rat),
                kind := "classic", model_pov := "white" }
  else if mode ≠ "mlp" then
    Except.error ("unknown mode: " ++ mode)
  else
    match fetched with
    | Except.error _ =>
      Except.ok { evalFn := fun st => (classicEval st : Rat),
                  kind := "classic_fallback", model_pov := "white" }
    | Except.ok blob => buildMlpWhitePOV blob

end Chess

namespace Chess

/-- Counterexample to C9 as stated: a weight blob whose `layers` field does
    not hold exactly two layers makes `getEval` in mlp mode raise
    (`buildMlpWhitePOV` throws outside the `try`/`catch`) instead of falling
    back to the classical evaluator. -/
def emptyBlob : MlpBlob :=
  { layers := [], scale_cp := none, model_pov := none }

theorem getEval_shape_raises :
    getEval "mlp" (Except.ok emptyBlob) =
      Except.error "Expected layers=[L0,L1] for 1-hidden MLP" := rfl

/-- C9 (corrected): only a failed weight *acquisition* (network error or
    JSON parse error, both caught by the `try`/`catch`) falls back to the
    classical evaluator; a blob of the wrong shape propagates the
    `buildMlpWhitePOV` exception to the caller. -/
theorem getEval_fallback (blob : MlpBlob) :
    getEval "mlp" (Except.error ()) =
      Except.ok { evalFn := fun st => (classicEval st : Rat),
                  kind := "classic_fallback", model_pov := "white" } ∧
    (blob.layers.length ≠ 2 →
      getEval "mlp" (Except.ok blob) =
        Except.error "Expected layers=[L0,L1] for 1-hidden MLP") := by
  constructor
  · rfl
  · intro h
    show buildMlpWhitePOV blob = _
    unfold buildMlpWhitePOV
    rw [if_pos h]

/-- Witness for C9: the corrected theorem applied to the empty-layers blob. -/
theorem getEval_fallback_witness :
    getEval "mlp" (Except.ok emptyBlob) =
      Except.error "Expected layers=[L0,L1] for 1-hidden MLP" :=
  (getEval_fallback emptyBlob).2 (by decide)

end Chess

namespace Chess

/-! ### Search helpers (`search.js`, consolidated variant) -/

def MAX_PLY : Nat := 128

def MATE : Int := 100000

def CONTEMPT : Int := 12

def drawScore (turn : Color) : Int :=
  if turn = Color.w then -CONTEMPT else CONTEMPT

def fiftyMoveDraw (st : State) : Bool := decide (100 ≤ st.halfmove)

def nonPawnPieceCount (st : State) : Nat :=
  (List.range 64).foldl (fun n i =>
    match bget st.board (Int.ofNat i) with
    | none => n
    | some p =>
      if p.t ≠ PieceKind.P ∧ p.t ≠ PieceKind.K then n + 1 else n) 0

def endgamePhase (st : State) : Bool := decide (nonPawnPieceCount st ≤ 4)

/-- `insufficientMaterial(state)`: no pawns, no rooks or queens, and at most
    two minor pieces in total. -/
def insufficientMaterial (st : State) : Bool :=
  let c := (List.range 64).foldl
    (fun (c : Nat × Nat × Nat) i =>
      match bget st.board (Int.ofNat i) with
      | none => c
      | some p =>
        if p.t = PieceKind.P then (c.1 + 1, c.2.1, c.2.2)
        else if p.t = PieceKind.R ∨ p.t = PieceKind.Q then
          (c.1, c.2.1 + 1, c.2.2)
        else if p.t = PieceKind.B ∨ p.t = PieceKind.N then
          (c.1, c.2.1, c.2.2 + 1)
        else c)
    (0, 0, 0)
  if 0 < c.1 then false
  else if 0 < c.2.1 then false
  else decide (c.2.2 ≤ 2)

def hasNonPawnMaterial (st : State) (side : Color) : Bool :=
  (List.range 64).any (fun i =>
    match bget st.board (Int.ofNat i) with
    | none => false
    | some p =>
      if p.c ≠ side then false
      else decide (p.t ≠ PieceKind.P ∧ p.t ≠ PieceKind.K))

def isEnPassantMove (st : State) (fromSq toSq : Int) : Bool :=
  match bget st.board fromSq with
  | none => false
  | some mover =>
    if mover.t ≠ PieceKind.P then false
    else if st.ep ≠ some toSq then false
    else
      let ff := (fromIndex fromSq).f
      let trf := fromIndex toSq
      if (trf.f - ff).natAbs ≠ 1 then false
      else
        let dir : Int := if mover.c = Color.w then -1 else 1
        let capIdx := toIndex (trf.r - dir) trf.f
        match bget st.board capIdx with
        | some victim =>
          decide (victim.t = PieceKind.P ∧ victim.c ≠ mover.c)
        | none => false

def isCapture (st : State) (fromSq toSq : Int) : Bool :=
  match bget st.board fromSq with
  | none => false
  | some mover =>
    (match bget st.board toSq with
     | some target => decide (target.c ≠ mover.c)
     | none => false) || isEnPassantMove st fromSq toSq

def isPromotionMove (st : State) (fromSq toSq : Int) : Bool :=
  match bget st.board fromSq with
  | none => false
  | some p =>
    if p.t ≠ PieceKind.P then false
    else
      let toRank := Int.fdiv toSq 8
      decide ((p.c = Color.w ∧ toRank = 0) ∨ (p.c = Color.b ∧ toRank = 7))

def isCastleMove (st : State) (fromSq toSq : Int) : Bool :=
  match bget st.board fromSq with
  | none => false
  | some p =>
    if p.t ≠ PieceKind.K then false
    else decide ((Int.tmod toSq 8 - Int.tmod fromSq 8).natAbs = 2)

def isQuietMove (st : State) (fromSq toSq : Int) : Bool :=
  !isCapture st fromSq toSq && !isPromotionMove st fromSq toSq &&
    !isCastleMove st fromSq toSq

/-- `givesCheckAfter`: do the move on the board, ask whether the enemy king
    square is attacked, undo (done here with a functional board copy). -/
def givesCheckAfter (st : State) (fromSq toSq enemyKingSq : Int) : Bool :=
  match bget st.board fromSq with
  | none => false
  | some mover =>
    let fromRF := fromIndex fromSq
    let toRF := fromIndex toSq
    let dir : Int := if mover.c = Color.w then -1 else 1
    let savedTo := bget st.board toSq
    let isEP := mover.t = PieceKind.P ∧ st.ep = some toSq ∧
      fromRF.f ≠ toRF.f ∧ savedTo = none
    let b1 := if isEP then bset st.board (toIndex (toRF.r - dir) toRF.f) none
              else st.board
    let b2 := bset b1 toSq (some mover)
    let b3 := bset b2 fromSq none
    isSquareAttacked { st with board := b3 } enemyKingSq mover.c

def moveKey (fromSq toSq : Int) : Int := fromSq * 64 + toSq

/-- The mutable search heuristics: killer moves, history table and the
    transposition table. -/
structure SState where
  killers : Nat → Int × Int
  history : Nat → Int → Int → Int
  tt : Nat → Option TTEntry

def addKiller (ss : SState) (ply : Nat) (mkey : Int) : SState :=
  if ply < MAX_PLY then
    let ks := ss.killers ply
    if ks.1 ≠ mkey then
      { ss with killers := fun p => if p = ply then (mkey, ks.1) else ss.killers p }
    else ss
  else ss

def bumpHistory (ss : SState) (sideIdx : Nat) (fromSq toSq : Int)
    (depth : Nat) : SState :=
  let bonus := ((depth : Int) + 1) * ((depth : Int) + 1) * 32
  let cur := ss.history sideIdx fromSq toSq
  let nxt := cur + bonus
  let nxt2 := if 1000000 < nxt then 1000000 else nxt
  { ss with history := fun s f t =>
      if s = sideIdx ∧ f = fromSq ∧ t = toSq then nxt2 else ss.history s f t }

structure Ann where
  fromSq : Int
  toSq : Int
  os : Int
  mkey : Int
  quiet : Bool
deriving DecidableEq, Repr

/-- Insert `x` into `l`, passing every element `y` with `le y x` (so, among
    elements the comparator ties, a later-inserted element lands last). -/
def insertLe {α : Type} (le : α → α → Bool) (x : α) : List α → List α
  | [] => [x]
  | y :: ys => if le y x = false then x :: y :: ys else y :: insertLe le x ys

/-- A stable sort for the comparator-induced preorder, standing in for the
    (stable) JavaScript `Array.prototype.sort`: any two stable sorts agree
    on a total preorder. -/
def stableSortBy {α : Type} (le : α → α → Bool) (l : List α) : List α :=
  l.foldl (fun acc x => insertLe le x acc) []

/-- `annotateMoves`: order moves by captures (MVV-LVA), checks, centre
    distance, TT move, killers and history; stable sort by descending score.
    The centre distance `|r-3.5|+|f-3.5|` is integral, computed here as
    `(|2r-7|+|2f-7|)/2`. -/
def annotateMoves (ss : SState) (st : State) (moves : List (Int × Int))
    (ttBest : Option (Int × Int)) (sideIdx : Nat) (ply : Nat)
    (light : Bool) : List Ann :=
  let k0 := if ply < MAX_PLY then (ss.killers ply).1 else -1
  let k1 := if ply < MAX_PLY then (ss.killers ply).2 else -1
  let enemyKingSq := findKing st (other st.turn)
  let out := moves.map (fun mvp =>
    let fromSq := mvp.1
    let toSq := mvp.2
    let mover := bget st.board fromSq
    let target := bget st.board toSq
    let mv := match mover with
      | some p => VAL p.t
      | none => 0
    let epCap := isEnPassantMove st fromSq toSq
    let vv := if epCap then VAL PieceKind.P
      else match target with
        | some q => VAL q.t
        | none => 0
    let isCap := target ≠ none ∨ epCap = true
    let os0 : Int := if isCap then 10 * vv - mv else 0
    let quiet := ¬isCap ∧ isPromotionMove st fromSq toSq = false ∧
      isCastleMove st fromSq toSq = false
    let os1 := if ¬light ∧ quiet ∧ enemyKingSq ≠ -1 ∧
        givesCheckAfter st fromSq toSq enemyKingSq = true
      then os0 + 150 else os0
    let os2 := if quiet then
        let r := Int.fdiv toSq 8
        let f := Int.tmod toSq 8
        os1 + (8 - (((2 * r - 7).natAbs : Int) + ((2 * f - 7).natAbs : Int)) / 2)
      else os1
    let os3 := match ttBest with
      | some tb => if fromSq = tb.1 ∧ toSq = tb.2 then os2 + 1000000000 else os2
      | none => os2
    let mk := moveKey fromSq toSq
    let os4 := if quiet then
        (if mk = k0 then os3 + 500000000
         else if mk = k1 then os3 + 499999999
         else os3)
      else os3
    let os5 := if quiet then os4 + ss.history sideIdx fromSq toSq else os4
    { fromSq := fromSq, toSq := toSq, os := os5, mkey := mk,
      quiet := decide quiet })
  stableSortBy (fun a b => decide (b.os ≤ a.os)) out

/-- `terminalScoreGivenMoves`: `null` when moves remain; otherwise the
    depth-penalised mate score for the side to move (white point of view),
    or 0 for stalemate. -/
def terminalScoreGivenMoves (st : State) (moves : List (Int × Int))
    (depth : Nat) : Option Int :=
  if moves.length ≠ 0 then none
  else if inCheck st st.turn then
    some ((if st.turn = Color.w then -1 else 1) * (MATE - (100 - (depth : Int))))
  else some 0

def makeNullMove (st : State) : State :=
  { st with turn := if st.turn = Color.w then Color.b else Color.w, ep := none }

end Chess

namespace Chess

/-- Ambient search context: Zobrist tables, transposition-table mask, the
    (constant) deadline oracle, the evaluator, and the recursion fuel used
    for the quiescence search (whose JS recursion terminates on material). -/
structure SCtx where
  zob : Zob
  mask : Nat
  expired : Bool
  evalFn : State → Int
  qfuel : Nat

/-- `quiescence(state, alpha, beta, evalFn)`: captures only unless in
    check; stand-pat window updates; draw claims first. -/
def quiescence (ctx : SCtx) (ss : SState) : Nat → State → JNum → JNum → JNum
  | 0, _, _, _ => JNum.fin 0
  | fuel + 1, st, alpha, beta =>
    if fiftyMoveDraw st || insufficientMaterial st then
      JNum.fin (drawScore st.turn)
    else
      let sideMax := st.turn = Color.w
      let inChk := inCheck st st.turn
      let stand := JNum.fin (ctx.evalFn st)
      if inChk = false ∧ sideMax ∧ JNum.le beta stand then stand
      else if inChk = false ∧ ¬sideMax ∧ JNum.le stand alpha then stand
      else
        let alpha1 := if inChk = false ∧ sideMax ∧ JNum.lt alpha stand then
            stand else alpha
        let beta1 := if inChk = false ∧ ¬sideMax ∧ JNum.lt stand beta then
            stand else beta
        if ctx.expired then stand
        else
          let moves0 := allLegalMoves st st.turn
          let moves := if inChk = false then
              moves0.filter (fun m => isCapture st m.1 m.2)
            else moves0
          if inChk = false ∧ moves.length = 0 then stand
          else
            let sideIdx := if st.turn = Color.w then 0 else 1
            let anns := annotateMoves ss st moves none sideIdx 0 true
            if sideMax then
              (anns.foldl (fun (acc : Bool × JNum) m =>
                if acc.1 then acc
                else
                  let v := quiescence ctx ss fuel
                    (applyMovePure st m.fromSq m.toSq) acc.2 beta1
                  let a2 := if JNum.lt acc.2 v then v else acc.2
                  if JNum.le beta1 a2 then (true, a2) else (false, a2))
                (false, alpha1)).2
            else
              (anns.foldl (fun (acc : Bool × JNum) m =>
                if acc.1 then acc
                else
                  let v := quiescence ctx ss fuel
                    (applyMovePure st m.fromSq m.toSq) alpha1 acc.2
                  let b2 := if JNum.lt v acc.2 then v else acc.2
                  if JNum.le b2 alpha1 then (true, b2) else (false, b2))
                (false, beta1)).2
termination_by structural fuel _ _ _ => fuel

end Chess

namespace Chess

/-- `alphaBeta(state, depth, alpha, beta, evalFn, ply, rep)` with the killer,
    history and transposition tables threaded explicitly and the repetition
    map passed functionally (the JS map is restored before every return). -/
def alphaBeta (ctx : SCtx) (ss : SState) (st : State) (depth : Nat)
    (alpha beta : JNum) (ply : Nat) (rep : Nat → Nat) : JNum × SState :=
  if fiftyMoveDraw st || insufficientMaterial st then
    (JNum.fin (drawScore st.turn), ss)
  else
    let key := computeKey ctx.zob st
    let seen := rep key
    if 2 ≤ seen then (JNum.fin (drawScore st.turn), ss)
    else
      let rep2 := fun k => if k = key then seen + 1 else rep k
      let endgame := endgamePhase st
      if ctx.expired then (quiescence ctx ss ctx.qfuel st alpha beta, ss)
      else if _hd : depth = 0 then (quiescence ctx ss ctx.qfuel st alpha beta, ss)
      else
        let maximizing := st.turn = Color.w
        let alphaStart := alpha
        let betaStart := beta
        let moves0 := allLegalMoves st st.turn
        match terminalScoreGivenMoves st moves0 depth with
        | some t => (JNum.fin t, ss)
        | none =>
          let nmp : Option JNum × SState :=
            if ¬endgame = true ∧ 3 ≤ depth ∧ inCheck st st.turn = false ∧
                hasNonPawnMaterial st st.turn = true then
              if JNum.le beta (JNum.fin (ctx.evalFn st)) then
                let R := if 6 ≤ depth then 3 else 2
                let res := alphaBeta ctx ss (makeNullMove st) (depth - 1 - R)
                  (JNum.addInt beta (-1)) beta (ply + 1) rep2
                if JNum.le beta res.1 then (some res.1, res.2)
                else (none, res.2)
              else (none, ss)
            else (none, ss)
          match nmp.1 with
          | some v => (v, nmp.2)
          | none =>
            let ss1 := nmp.2
            let ttStep : Option JNum × JNum × JNum × Option (Int × Int) :=
              match ttProbe ss1.tt ctx.mask key (depth : Int) with
              | ProbeResult.miss => (none, alpha, beta, none)
              | ProbeResult.hint bm => (none, alpha, beta, bm)
              | ProbeResult.full e =>
                if e.flag = 0 then (some e.score, alpha, beta, e.bestMove)
                else
                  let alpha2 := if e.flag = 1 then JNum.maxJ alpha e.score
                    else alpha
                  let beta2 := if e.flag = 2 then JNum.minJ beta e.score
                    else beta
                  if JNum.le beta2 alpha2 then
                    (some e.score, alpha2, beta2, e.bestMove)
                  else (none, alpha2, beta2, e.bestMove)
            match ttStep.1 with
            | some v => (v, ss1)
            | none =>
              let alphaT := ttStep.2.1
              let betaT := ttStep.2.2.1
              let ttBest := ttStep.2.2.2
              let sideIdx := if st.turn = Color.w then 0 else 1
              let scored := annotateMoves ss1 st moves0 ttBest sideIdx ply
                (decide (depth ≤ 3))
              if maximizing then
                let res := scored.enum.foldl
                  (fun (acc : Bool × JNum × JNum × SState) im =>
                    let idx := im.1
                    let m := im.2
                    if acc.1 then acc
                    else if ctx.expired then (true, acc.2)
                    else if ¬endgame = true ∧ depth ≤ 3 ∧ m.quiet = true ∧
                        8 ≤ idx then acc
                    else if ¬endgame = true ∧ depth = 1 ∧ m.quiet = true ∧
                        inCheck st st.turn = false ∧
                        JNum.le (JNum.fin (ctx.evalFn st + 250)) acc.2.2.1 then
                      acc
                    else
                      let cs := applyMovePure st m.fromSq m.toSq
                      let vr :=
                        if ¬endgame = true ∧ 4 ≤ depth ∧ m.quiet = true ∧
                            6 ≤ idx ∧ ply < MAX_PLY - 1 then
                          let R := if 10 ≤ idx then 2 else 1
                          let r1 := alphaBeta ctx acc.2.2.2 cs (depth - 1 - R)
                            (JNum.addInt acc.2.2.1 1) (JNum.addInt acc.2.2.1 1)
                            (ply + 1) rep2
                          if JNum.lt acc.2.2.1 r1.1 ∧ ctx.expired = false then
                            alphaBeta ctx r1.2 cs (depth - 1) acc.2.2.1 betaT
                              (ply + 1) rep2
                          else r1
                        else
                          alphaBeta ctx acc.2.2.2 cs (depth - 1) acc.2.2.1 betaT
                            (ply + 1) rep2
                      let best2 := if JNum.lt acc.2.1 vr.1 then vr.1 else acc.2.1
                      let alpha2 := if JNum.lt acc.2.2.1 vr.1 then vr.1
                        else acc.2.2.1
                      if JNum.le betaT alpha2 then
                        let ss2 := if m.quiet then
                            bumpHistory (addKiller vr.2 ply m.mkey) sideIdx
                              m.fromSq m.toSq depth
                          else vr.2
                        (true, best2, alpha2, ss2)
                      else (false, best2, alpha2, vr.2))
                  (false, JNum.fin (-MATE), alphaT, ss1)
                let best := res.2.1
                let flag : Nat :=
                  if JNum.le best alphaStart then 2
                  else if JNum.le betaStart best then 1
                  else 0
                let bm := match scored.head? with
                  | some m0 => some (m0.fromSq, m0.toSq)
                  | none => none
                let ssF := { res.2.2.2 with
                  tt := ttStore res.2.2.2.tt ctx.mask key (depth : Int) flag
                    best bm }
                (best, ssF)
              else
                let res := scored.enum.foldl
                  (fun (acc : Bool × JNum × JNum × SState) im =>
                    let idx := im.1
                    let m := im.2
                    if acc.1 then acc
                    else if ctx.expired then (true, acc.2)
                    else if ¬endgame = true ∧ depth ≤ 3 ∧ m.quiet = true ∧
                        8 ≤ idx then acc
                    else if ¬endgame = true ∧ depth = 1 ∧ m.quiet = true ∧
                        inCheck st st.turn = false ∧
                        JNum.le acc.2.2.1 (JNum.fin (ctx.evalFn st - 250)) then
                      acc
                    else
                      let cs := applyMovePure st m.fromSq m.toSq
                      let vr :=
                        if ¬endgame = true ∧ 4 ≤ depth ∧ m.quiet = true ∧
                            6 ≤ idx ∧ ply < MAX_PLY - 1 then
                          let R := if 10 ≤ idx then 2 else 1
                          let r1 := alphaBeta ctx acc.2.2.2 cs (depth - 1 - R)
                            (JNum.addInt acc.2.2.1 (-1))
                            (JNum.addInt acc.2.2.1 (-1)) (ply + 1) rep2
                          if JNum.lt r1.1 acc.2.2.1 ∧ ctx.expired = false then
                            alphaBeta ctx r1.2 cs (depth - 1) alphaT acc.2.2.1
                              (ply + 1) rep2
                          else r1
                        else
                          alphaBeta ctx acc.2.2.2 cs (depth - 1) alphaT
                            acc.2.2.1 (ply + 1) rep2
                      let best2 := if JNum.lt vr.1 acc.2.1 then vr.1 else acc.2.1
                      let beta2 := if JNum.lt vr.1 acc.2.2.1 then vr.1
                        else acc.2.2.1
                      if JNum.le beta2 alphaT then
                        let ss2 := if m.quiet then
                            bumpHistory (addKiller vr.2 ply m.mkey) sideIdx
                              m.fromSq m.toSq depth
                          else vr.2
                        (true, best2, beta2, ss2)
                      else (false, best2, beta2, vr.2))
                  (false, JNum.fin MATE, betaT, ss1)
                let best := res.2.1
                let flag : Nat :=
                  if JNum.le best alphaStart then 2
                  else if JNum.le betaStart best then 1
                  else 0
                let bm := match scored.head? with
                  | some m0 => some (m0.fromSq, m0.toSq)
                  | none => none
                let ssF := { res.2.2.2 with
                  tt := ttStore res.2.2.2.tt ctx.mask key (depth : Int) flag
                    best bm }
                (best, ssF)
termination_by depth
decreasing_by all_goals omega

end Chess

namespace Chess

/-- Concrete search context for witnesses: the test Zobrist tables, a small
    table mask, no deadline, the zero evaluator. -/
def ctxTest : SCtx :=
  { zob := zTest, mask := 255, expired := false, evalFn := fun _ => 0,
    qfuel := 2 }

/-- Fresh heuristics: empty killer slots, zero history, empty table. -/
def ssInit : SState :=
  { killers := fun _ => (-1, -1), history := fun _ _ _ => 0,
    tt := fun _ => none }

/-- A checkmate: white queen g7 guarded by the king f6, black king h8 to
    move with no legal reply. -/
def mateState : State :=
  { board := bset (bset (bset ((List.range 64).map (fun _ => none))
      7 (some { c := Color.b, t := PieceKind.K }))
      14 (some { c := Color.w, t := PieceKind.Q }))
      21 (some { c := Color.w, t := PieceKind.K })
    turn := Color.b
    castleRight := []
    ep := none
    halfmove := 0
    fullmove := 1 }

set_option maxHeartbeats 2000000 in
/-- The terminal branch of `alphaBeta`: with no draw claim, no repetition
    block, time remaining, positive depth and no legal move, the node
    returns the depth-penalised mate score or the stalemate zero. -/
theorem alphaBeta_terminal_aux (ctx : SCtx) (ss : SState) (st : State)
    (depth : Nat) (alpha beta : JNum) (ply : Nat) (rep : Nat → Nat)
    (hdraw : fiftyMoveDraw st = false)
    (hmat : insufficientMaterial st = false)
    (hrep : rep (computeKey ctx.zob st) < 2)
    (hexp : ctx.expired = false) (hdepth : depth ≠ 0)
    (hmoves : allLegalMoves st st.turn = []) :
    (alphaBeta ctx ss st depth alpha beta ply rep).1 =
      JNum.fin (if inCheck st st.turn then
        (if st.turn = Color.w then -1 else 1) * (MATE - (100 - (depth : Int)))
      else 0) := by
  rw [alphaBeta]
  rw [hdraw, hmat]
  simp only [Bool.or_self, Bool.false_eq_true, if_false]
  rw [if_neg (by omega)]
  simp only [hexp, Bool.false_eq_true, if_false]
  rw [dif_neg hdepth]
  have hterm : terminalScoreGivenMoves st [] depth =
      some (if inCheck st st.turn then
        (if st.turn = Color.w then -1 else 1) * (MATE - (100 - (depth : Int)))
      else 0) := by
    unfold terminalScoreGivenMoves
    by_cases hic : inCheck st st.turn = true
    · simp [hic]
    · simp only [Bool.not_eq_true] at hic
      simp [hic]
  rw [hmoves, hterm]

end Chess

namespace Chess

/-- C2 (corrected): when the side to move has no legal moves — and the node
    is not pre-empted by a draw claim, a repetition block, the deadline or
    the depth-0 cutoff — `alphaBeta` returns the white-POV mate score
    `±(MATE − (100 − depth))` when in check and 0 for stalemate: the mate
    score is penalised by `100 − depth` (remaining depth), not by the ply
    distance from the root. -/
theorem alphaBeta_mate_depth_penalty (ctx : SCtx) (ss : SState) (st : State)
    (depth : Nat) (alpha beta : JNum) (ply : Nat) (rep : Nat → Nat)
    (hdraw : fiftyMoveDraw st = false)
    (hmat : insufficientMaterial st = false)
    (hrep : rep (computeKey ctx.zob st) < 2)
    (hexp : ctx.expired = false) (hdepth : depth ≠ 0)
    (hmoves : allLegalMoves st st.turn = []) :
    (alphaBeta ctx ss st depth alpha beta ply rep).1 =
      JNum.fin (if inCheck st st.turn then
        (if st.turn = Color.w then -1 else 1) * (MATE - (100 - (depth : Int)))
      else 0) :=
  alphaBeta_terminal_aux ctx ss st depth alpha beta ply rep hdraw hmat hrep
    hexp hdepth hmoves

/-- Counterexample to C2 as stated: in the mated position the depth-3 node
    value is `MATE − 97 = 99903`, which is neither `−MATE + ply` nor its
    white-POV mirror `MATE − ply` for the root ply 0. -/
theorem alphaBeta_mate_score_cex :
    (alphaBeta ctxTest ssInit mateState 3 JNum.ninf JNum.pinf 0
        (fun _ => 0)).1 = JNum.fin 99903 ∧
      (99903 : Int) ≠ MATE - 0 ∧ (99903 : Int) ≠ -MATE + 0 := by
  refine ⟨?_, by decide, by decide⟩
  rw [alphaBeta_terminal_aux ctxTest ssInit mateState 3 JNum.ninf JNum.pinf 0
    (fun _ => 0) (by decide) (by decide) (by decide) rfl (by decide)
    (by decide)]
  decide

/-- Witness for C2: the corrected statement instantiated at the concrete
    mate, depth 5. -/
theorem alphaBeta_mate_depth_penalty_witness :
    allLegalMoves mateState mateState.turn = [] ∧
      (alphaBeta ctxTest ssInit mateState 5 JNum.ninf JNum.pinf 0
          (fun _ => 0)).1 = JNum.fin ((1 : Int) * (MATE - 95)) := by
  refine ⟨by decide, ?_⟩
  rw [alphaBeta_mate_depth_penalty ctxTest ssInit mateState 5 JNum.ninf
    JNum.pinf 0 (fun _ => 0) (by decide) (by decide) (by decide) rfl
    (by decide) (by decide)]
  decide

/-- C3 (the divergence): at a checkmate reached by the quiescence search
    with the root's infinite window, `quiescence` returns `Infinity` (the
    untouched `beta`), not a finite stand-pat — contradicting the spec (and
    the code comment) that the search always yields a finite score. -/
theorem quiescence_infinite_on_mate :
    quiescence ctxTest ssInit 3 mateState JNum.ninf JNum.pinf = JNum.pinf ∧
      JNum.isFinite
        (quiescence ctxTest ssInit 3 mateState JNum.ninf JNum.pinf) =
        false := by decide

end Chess

namespace Chess

def pawnAt (st : State) (i : Nat) : Bool :=
  match bget st.board (Int.ofNat i) with
  | some p => decide (p.t = PieceKind.P)
  | none => false

def heavyAt (st : State) (i : Nat) : Bool :=
  match bget st.board (Int.ofNat i) with
  | some p => decide (p.t = PieceKind.R ∨ p.t = PieceKind.Q)
  | none => false

def minorAt (st : State) (i : Nat) : Bool :=
  match bget st.board (Int.ofNat i) with
  | some p => decide (p.t = PieceKind.B ∨ p.t = PieceKind.N)
  | none => false

theorem pawnAt_none (st : State) (x : Nat)
    (hp : bget st.board (Int.ofNat x) = none) : pawnAt st x = false := by
  unfold pawnAt
  rw [hp]

theorem pawnAt_some (st : State) (x : Nat) (p : Piece)
    (hp : bget st.board (Int.ofNat x) = some p) :
    pawnAt st x = decide (p.t = PieceKind.P) := by
  unfold pawnAt
  rw [hp]

theorem heavyAt_none (st : State) (x : Nat)
    (hp : bget st.board (Int.ofNat x) = none) : heavyAt st x = false := by
  unfold heavyAt
  rw [hp]

theorem heavyAt_some (st : State) (x : Nat) (p : Piece)
    (hp : bget st.board (Int.ofNat x) = some p) :
    heavyAt st x = decide (p.t = PieceKind.R ∨ p.t = PieceKind.Q) := by
  unfold heavyAt
  rw [hp]

theorem minorAt_none (st : State) (x : Nat)
    (hp : bget st.board (Int.ofNat x) = none) : minorAt st x = false := by
  unfold minorAt
  rw [hp]

theorem minorAt_some (st : State) (x : Nat) (p : Piece)
    (hp : bget st.board (Int.ofNat x) = some p) :
    minorAt st x = decide (p.t = PieceKind.B ∨ p.t = PieceKind.N) := by
  unfold minorAt
  rw [hp]

theorem insuffCounts (st : State) :
    ∀ (l : List Nat) (a b c : Nat),
      l.foldl (fun (cc : Nat × Nat × Nat) i =>
        match bget st.board (Int.ofNat i) with
        | none => cc
        | some p =>
          if p.t = PieceKind.P then (cc.1 + 1, cc.2.1, cc.2.2)
          else if p.t = PieceKind.R ∨ p.t = PieceKind.Q then
            (cc.1, cc.2.1 + 1, cc.2.2)
          else if p.t = PieceKind.B ∨ p.t = PieceKind.N then
            (cc.1, cc.2.1, cc.2.2 + 1)
          else cc) (a, b, c) =
      (a + l.countP (pawnAt st), b + l.countP (heavyAt st),
        c + l.countP (minorAt st)) := by
  intro l
  induction l with
  | nil => intro a b c; simp
  | cons x xs ih =>
    intro a b c
    rw [List.foldl_cons, List.countP_cons, List.countP_cons, List.countP_cons]
    rcases hp : bget st.board (Int.ofNat x) with _ | p
    · rw [pawnAt_none st x hp, heavyAt_none st x hp, minorAt_none st x hp]
      simp only [hp]
      rw [ih a b c]
      simp
    · rw [pawnAt_some st x p hp, heavyAt_some st x p hp, minorAt_some st x p hp]
      simp only [hp]
      by_cases h1 : p.t = PieceKind.P
      · rw [if_pos h1, ih (a + 1) b c]
        simp [h1, Prod.mk.injEq]
        omega
      · rw [if_neg h1]
        by_cases h2 : p.t = PieceKind.R ∨ p.t = PieceKind.Q
        · rw [if_pos h2, ih a (b + 1) c]
          rcases h2 with h | h <;> simp [h, Prod.mk.injEq] <;> omega
        · rw [if_neg h2]
          by_cases h3 : p.t = PieceKind.B ∨ p.t = PieceKind.N
          · rw [if_pos h3, ih a b (c + 1)]
            rcases h3 with h | h <;> simp [h, Prod.mk.injEq] <;> omega
          · rw [if_neg h3, ih a b c]
            simp [h1, h2, h3, Prod.mk.injEq]

/-- C5 (corrected): the code's material-draw test fires exactly when the
    board holds no pawn, no rook or queen, and at most two minor pieces in
    total — regardless of the bishops' square colors or which side owns the
    minors — and `alphaBeta` then returns the contempt-adjusted draw score
    immediately. -/
theorem insufficientMaterial_characterization (st : State) (ctx : SCtx)
    (ss : SState) (depth : Nat) (alpha beta : JNum) (ply : Nat)
    (rep : Nat → Nat) :
    (insufficientMaterial st = true ↔
      ((List.range 64).countP (pawnAt st) = 0 ∧
       (List.range 64).countP (heavyAt st) = 0 ∧
       (List.range 64).countP (minorAt st) ≤ 2)) ∧
    (insufficientMaterial st = true →
      (alphaBeta ctx ss st depth alpha beta ply rep).1 =
        JNum.fin (drawScore st.turn)) := by
  constructor
  · unfold insufficientMaterial
    rw [insuffCounts st (List.range 64) 0 0 0]
    simp only [Nat.zero_add]
    constructor
    · intro h
      by_cases h1 : 0 < (List.range 64).countP (pawnAt st)
      · rw [if_pos h1] at h
        exact Bool.noConfusion h
      · rw [if_neg h1] at h
        by_cases h2 : 0 < (List.range 64).countP (heavyAt st)
        · rw [if_pos h2] at h
          exact Bool.noConfusion h
        · rw [if_neg h2] at h
          simp only [decide_eq_true_eq] at h
          exact ⟨by omega, by omega, h⟩
    · intro ⟨h1, h2, h3⟩
      rw [if_neg (by omega), if_neg (by omega)]
      simpa using h3
  · intro h
    rw [alphaBeta]
    rw [h]
    simp

/-- Two kings and two bishops on different square colors: the code calls
    this a draw, the spec's list does not. -/
def bishopsState : State :=
  { board := bset (bset (bset (bset ((List.range 64).map (fun _ => none))
      56 (some { c := Color.w, t := PieceKind.K }))
      58 (some { c := Color.w, t := PieceKind.B }))
      0 (some { c := Color.b, t := PieceKind.K }))
      2 (some { c := Color.b, t := PieceKind.B })
    turn := Color.w
    castleRight := []
    ep := none
    halfmove := 0
    fullmove := 1 }

/-- The spec's insufficient-material list, modelled from the spec's words
    for comparison with the code's test: no pawns/rooks/queens and (K vs K),
    (K + one minor vs K), (K+B vs K+B with both bishops on one square
    color), or (K+N+N vs lone K with both knights owned by one side). -/
def specInsufficientMaterial (st : State) : Bool :=
  let nonKings := (List.range 64).filterMap (fun i =>
    match bget st.board (Int.ofNat i) with
    | some p => if p.t ≠ PieceKind.K then some (Int.ofNat i, p) else none
    | none => none)
  let sqColor : Int → Int := fun i => (Int.fdiv i 8 + Int.tmod i 8) % 2
  match nonKings with
  | [] => true
  | [(_, p)] => decide (p.t = PieceKind.B ∨ p.t = PieceKind.N)
  | [(i, p), (j, q)] =>
    decide ((p.t = PieceKind.B ∧ q.t = PieceKind.B ∧ p.c ≠ q.c ∧
        sqColor i = sqColor j) ∨
      (p.t = PieceKind.N ∧ q.t = PieceKind.N ∧ p.c = q.c))
  | _ => false

/-- Counterexample to C5 as stated: with bishops on opposite square colors
    the code's test still reports a draw, although the position is not in
    the spec's list. -/
theorem insufficientMaterial_cex :
    insufficientMaterial bishopsState = true ∧
      specInsufficientMaterial bishopsState = false := by decide

/-- Witness for C5: the characterization applied at the concrete two-bishop
    position. -/
theorem insufficientMaterial_characterization_witness :
    insufficientMaterial bishopsState = true ∧
      (alphaBeta ctxTest ssInit bishopsState 4 JNum.ninf JNum.pinf 0
          (fun _ => 0)).1 = JNum.fin (drawScore bishopsState.turn) := by
  refine ⟨by decide, ?_⟩
  exact (insufficientMaterial_characterization bishopsState ctxTest ssInit 4
    JNum.ninf JNum.pinf 0 (fun _ => 0)).2 (by decide)

end Chess

namespace Chess

/-- One iterative-deepening depth in the trace: the root ordering used at
    that depth and the moves actually searched. -/
structure DepthRec where
  d : Nat
  order : List (Int × Int)
  searched : List (Int × Int)
deriving DecidableEq, Repr

structure RootState where
  moves : List (Int × Int)
  bestMove : Int × Int
  bestScore : JNum
  lastScore : JNum
  finishedDepth : Nat
  ss : SState
  trace : List DepthRec

/-- `score > localBestScore` for white, `score < localBestScore` for black. -/
def betterFor (player : Color) (old new : JNum) : Bool :=
  if player = Color.w then JNum.lt old new else JNum.lt new old

/-- `(player === "w") ? -MATE : MATE`, the root-loop local best initial. -/
def rootInitScore (player : Color) : JNum :=
  if player = Color.w then JNum.fin (-MATE) else JNum.fin MATE

/-- The aspiration window: `(-Infinity, Infinity)` except at depth `d >= 5`
    with a finite previous score, where it is `lastScore +- ASP_WIDE`. -/
def aspWindow (d : Nat) (lastScore : JNum) : JNum × JNum :=
  if 5 ≤ d ∧ JNum.isFinite lastScore = true then
    (JNum.addInt lastScore (-200), JNum.addInt lastScore 200)
  else (JNum.ninf, JNum.pinf)

/-- The `for (let d = 1; d <= maxDepth; d++)` driver of `pickMove` for the
    `timeMs = null` case (no deadline, so no time-based break, no finish
    guard, and no aspiration re-search). -/
def rootIter (ctx : SCtx) (st : State) (repBase : Nat → Nat)
    (player : Color) : Nat → Nat → RootState → RootState
  | 0, _, rs => rs
  | remaining + 1, d, rs =>
    let ab := aspWindow d rs.lastScore
    let limit := min rs.moves.length 10
    let searched := rs.moves.take limit
    let inner := searched.foldl
      (fun (acc : Option (Int × Int) × JNum × SState) mv =>
        let cs := applyMovePure st mv.1 mv.2
        let r := alphaBeta ctx acc.2.2 cs (d - 1) ab.1 ab.2 1 repBase
        if betterFor player acc.2.1 r.1 = true then (some mv, r.1, r.2)
        else (acc.1, acc.2.1, r.2))
      (none, rootInitScore player, rs.ss)
    let rec1 : DepthRec := { d := d, order := rs.moves, searched := searched }
    match inner.1 with
    | some lb =>
      let moves2 := stableSortBy (fun a b => decide (a = lb ∨ b ≠ lb)) rs.moves
      let rs2 : RootState :=
        { moves := moves2, bestMove := lb, bestScore := inner.2.1,
          lastScore := inner.2.1, finishedDepth := d, ss := inner.2.2,
          trace := rs.trace ++ [rec1] }
      if JNum.absGT rs2.bestScore 99000 then rs2
      else rootIter ctx st repBase player remaining (d + 1) rs2
    | none =>
      rootIter ctx st repBase player remaining (d + 1)
        { rs with ss := inner.2.2, trace := rs.trace ++ [rec1] }

/-- `pickMove(state, {depth: maxDepth, timeMs: null, evalFn})`, with the
    book-probe outcome supplied as `bookHint` and the per-depth root trace
    returned alongside the chosen move. -/
def pickMove (ctx : SCtx) (ss0 : SState) (st : State) (maxDepth : Nat)
    (bookHint : Option (Int × Int)) :
    Option (Int × Int × Int) × List DepthRec :=
  let player := st.turn
  let moves := allLegalMoves st player
  if moves.length = 0 then (none, [])
  else
    let rootKey := computeKey ctx.zob st
    let ttHint : Option (Int × Int) :=
      match ttProbe ss0.tt ctx.mask rootKey 0 with
      | ProbeResult.full e => e.bestMove
      | ProbeResult.hint bm => bm
      | ProbeResult.miss => none
    let hint := match ttHint with
      | some h => some h
      | none => bookHint
    let sideIdx := if player = Color.w then 0 else 1
    let annotated := annotateMoves ss0 st moves hint sideIdx 0 true
    let moves1 := annotated.map (fun m => (m.fromSq, m.toSq))
    let ss1 := { ss0 with killers := fun p =>
      if p < (min MAX_PLY (maxDepth + 4)) then (-1, -1) else ss0.killers p }
    let repBase : Nat → Nat := fun k => if k = rootKey then 1 else 0
    let rs0 : RootState :=
      { moves := moves1, bestMove := moves1.headD (-1, -1),
        bestScore := rootInitScore player,
        lastScore := JNum.fin 0, finishedDepth := 0, ss := ss1, trace := [] }
    let rsF := rootIter ctx st repBase player maxDepth 1 rs0
    let uiScore := if JNum.isFinite rsF.bestScore then
        JNum.finiteOr rsF.bestScore 0
      else JNum.finiteOr
        (quiescence ctx rsF.ss ctx.qfuel st JNum.ninf JNum.pinf) 0
    (some (rsF.bestMove.1, rsF.bestMove.2, uiScore), rsF.trace)

end Chess

namespace Chess

theorem take_min_length {α : Type} (l : List α) (n : Nat) :
    l.take (min l.length n) = l.take n := by
  rcases Nat.le_total l.length n with h | h
  · rw [Nat.min_eq_left h, List.take_length, List.take_of_length_le h]
  · rw [Nat.min_eq_right h]

theorem insertLe_perm {α : Type} (le : α → α → Bool) (x : α) (l : List α) :
    (insertLe le x l).Perm (x :: l) := by
  induction l with
  | nil => exact List.Perm.refl _
  | cons y ys ih =>
    unfold insertLe
    split
    · exact List.Perm.refl _
    · exact (ih.cons y).trans (List.Perm.swap x y ys)

theorem foldl_insertLe_perm {α : Type} (le : α → α → Bool) :
    ∀ (l acc : List α),
      (l.foldl (fun acc x => insertLe le x acc) acc).Perm (acc ++ l) := by
  intro l
  induction l with
  | nil => intro acc; simp
  | cons x xs ih =>
    intro acc
    have h1 := ih (insertLe le x acc)
    have h2 : (insertLe le x acc ++ xs).Perm ((x :: acc) ++ xs) :=
      (insertLe_perm le x acc).append_right xs
    have h3 : ((x :: acc) ++ xs).Perm (acc ++ x :: xs) := List.perm_middle.symm
    exact (h1.trans h2).trans h3

theorem stableSortBy_perm {α : Type} (le : α → α → Bool) (l : List α) :
    (stableSortBy le l).Perm l := by
  have h := foldl_insertLe_perm le l []
  simpa [stableSortBy] using h

theorem map_ann_proj (g : Int × Int → Ann)
    (hg : ∀ p, ((g p).fromSq, (g p).toSq) = p) (l : List (Int × Int)) :
    (l.map g).map (fun m => (m.fromSq, m.toSq)) = l := by
  rw [List.map_map]
  calc l.map ((fun m : Ann => (m.fromSq, m.toSq)) ∘ g)
      = l.map id := List.map_congr_left (fun x _ => hg x)
    _ = l := List.map_id l

theorem annotateMoves_proj_perm (ss : SState) (st : State)
    (moves : List (Int × Int)) (ttBest : Option (Int × Int))
    (sideIdx ply : Nat) (light : Bool) :
    ((annotateMoves ss st moves ttBest sideIdx ply light).map
        (fun m => (m.fromSq, m.toSq))).Perm moves := by
  simp only [annotateMoves]
  refine ((stableSortBy_perm _ _).map _).trans ?_
  rw [map_ann_proj _ (fun p => rfl) moves]

theorem trace_snoc_prop (legal : List (Int × Int)) (tr : List DepthRec)
    (d : Nat) (mvs : List (Int × Int))
    (htr : ∀ r ∈ tr, r.searched = r.order.take 10 ∧ r.order.Perm legal)
    (hmv : mvs.Perm legal) :
    ∀ r ∈ tr ++ [⟨d, mvs, mvs.take (min mvs.length 10)⟩],
      r.searched = r.order.take 10 ∧ r.order.Perm legal := by
  intro r hr
  rcases List.mem_append.mp hr with h | h
  · exact htr r h
  · rw [List.mem_singleton] at h
    subst h
    exact ⟨take_min_length _ _, hmv⟩

theorem rootIter_trace_inv (ctx : SCtx) (st : State) (rep : Nat → Nat)
    (player : Color) (legal : List (Int × Int)) :
    ∀ (remaining d : Nat) (rs : RootState),
      (∀ r ∈ rs.trace, r.searched = r.order.take 10 ∧ r.order.Perm legal) →
      rs.moves.Perm legal →
      ∀ r ∈ (rootIter ctx st rep player remaining d rs).trace,
        r.searched = r.order.take 10 ∧ r.order.Perm legal := by
  intro remaining
  induction remaining with
  | zero =>
    intro d rs htr _ r hr
    exact htr r hr
  | succ n ih =>
    intro d rs htr hmv r hr
    simp only [rootIter] at hr
    split at hr
    · split at hr
      · exact trace_snoc_prop legal rs.trace d rs.moves htr hmv r hr
      · exact ih (d + 1) _
          (trace_snoc_prop legal rs.trace d rs.moves htr hmv)
          ((stableSortBy_perm _ _).trans hmv) r hr
    · refine ih (d + 1) _ ?_ ?_ r hr
      · exact trace_snoc_prop legal rs.trace d rs.moves htr hmv
      · exact hmv

end Chess

namespace Chess

/-- C4 (corrected): at every executed iterative-deepening depth the root
    driver searches exactly the first `ROOT_CHUNK = 10` moves of the current
    root ordering (all of them only when at most ten exist); the ordering at
    every depth is a permutation of the legal root moves, so in positions
    with more than ten legal moves the tail of the ordering is never
    searched at that depth, deadline or not. -/
theorem pickMove_root_chunk (ctx : SCtx) (ss0 : SState) (st : State)
    (maxDepth : Nat) (bookHint : Option (Int × Int)) :
    ∀ r ∈ (pickMove ctx ss0 st maxDepth bookHint).2,
      r.searched = r.order.take 10 ∧
        r.order.Perm (allLegalMoves st st.turn) := by
  intro r hr
  simp only [pickMove] at hr
  split at hr
  · exact absurd hr (List.not_mem_nil r)
  · refine rootIter_trace_inv ctx st _ st.turn (allLegalMoves st st.turn)
      maxDepth 1 _ ?_ ?_ r hr
    · exact fun r' hr' => absurd hr' (List.not_mem_nil r')
    · exact annotateMoves_proj_perm _ _ _ _ _ _ _

theorem rootIter_one_trace (ctx : SCtx) (st : State) (rep : Nat → Nat)
    (player : Color) (d : Nat) (rs : RootState) :
    (rootIter ctx st rep player 1 d rs).trace =
      rs.trace ++ [⟨d, rs.moves, rs.moves.take (min rs.moves.length 10)⟩] := by
  simp only [rootIter]
  split
  · split
    · rfl
    · rfl
  · rfl

/-- The root ordering produced for the initial position with no
    transposition-table or book hint. -/
def rootOrder0 : List (Int × Int) :=
  (annotateMoves ssInit initialState (allLegalMoves initialState Color.w)
      none 0 0 true).map (fun m => (m.fromSq, m.toSq))

def depth1Rec : DepthRec :=
  ⟨1, rootOrder0, rootOrder0.take (min rootOrder0.length 10)⟩

theorem pickMove_depth1_trace :
    (pickMove ctxTest ssInit initialState 1 none).2 = [depth1Rec] := by
  simp only [pickMove]
  rw [if_neg (by decide :
    ¬(allLegalMoves initialState initialState.turn).length = 0)]
  rw [rootIter_one_trace]
  decide

end Chess

namespace Chess

/-- C4 counterexample to the spec's wording: in the initial position (20
    legal moves) the legal pawn move a2-a3 (square 48 to square 40) is a
    legal root move, yet at depth 1 with no deadline it is never searched:
    it is outside the first ten moves of the root ordering. -/
theorem pickMove_root_chunk_cex :
    ((48 : Int), (40 : Int)) ∈ allLegalMoves initialState Color.w ∧
      ∀ r ∈ (pickMove ctxTest ssInit initialState 1 none).2,
        ((48 : Int), (40 : Int)) ∉ r.searched := by
  refine ⟨by decide, ?_⟩
  intro r hr
  rw [pickMove_depth1_trace, List.mem_singleton] at hr
  subst hr
  decide

/-- C4 witness: the corrected statement applied to the depth-1 search from
    the initial position. -/
theorem pickMove_root_chunk_witness :
    depth1Rec.searched = depth1Rec.order.take 10 ∧
      depth1Rec.order.Perm (allLegalMoves initialState initialState.turn) :=
  pickMove_root_chunk ctxTest ssInit initialState 1 none depth1Rec
    (by rw [pickMove_depth1_trace]; exact List.mem_singleton_self _)

end Chess
